import Mathlib

/-!
Verification of the catalog aggregation and popularity-ranking engine of the
dotman repository (src/main.rs), as a shallow embedding in Lean 4.

Strings are modelled as lists of characters (`Str := List Char`); Rust string
operations (`to_lowercase`, `contains`, `strip_prefix`, `strip_suffix`,
`trim_end_matches`, `split`) are re-implemented below on that representation.
Machine integers (`u64` star counts) are modelled as `Nat` (the source never
performs arithmetic that could overflow: counts are only read from JSON and
compared).  Network effects are modelled by passing the transport as an
explicit function from the request to an `HttpResult`.
-/

namespace Dotman

/-- Character-list representation of Rust strings. -/
abbrev Str := List Char

/-- Embed a Lean string literal into the `Str` representation. -/
def str (s : String) : Str := s.data

/-- Rust `str::to_lowercase` (the source only ever feeds it ASCII URLs,
for which Unicode and ASCII lowercasing agree). -/
def lowerStr (s : Str) : Str := s.map Char.toLower

/-- Rust `str::contains(pat)` for a literal pattern: substring test. -/
def containsSub : Str → Str → Bool
  | [], pat => pat.isEmpty
  | s@(_ :: rest), pat => pat.isPrefixOf s || containsSub rest pat

/-- Rust `str::strip_prefix(pat)`. -/
def stripPrefixOf (pat s : Str) : Option Str :=
  if pat.isPrefixOf s then some (s.drop pat.length) else none

/-- Rust `str::strip_suffix(pat)`. -/
def stripSuffixOf (pat s : Str) : Option Str :=
  if pat.isSuffixOf s then some (s.take (s.length - pat.length)) else none

/-- Rust `str::trim_end_matches(c)` for a char pattern: remove every
trailing occurrence of `c`. -/
def trimEndChar (c : Char) (s : Str) : Str :=
  (s.reverse.dropWhile (fun x => x == c)).reverse

/-- Fuel-driven loop of `trim_end_matches(".git")`; the fuel `s.length`
always suffices because each round removes four characters. -/
def trimEndGitAux : Nat → Str → Str
  | 0, s => s
  | fuel + 1, s =>
    match stripSuffixOf (str ".git") s with
    | some s2 => trimEndGitAux fuel s2
    | none => s

/-- Rust `str::trim_end_matches(".git")`: remove every trailing `.git`. -/
def trimEndGit (s : Str) : Str := trimEndGitAux s.length s

/-- Rust `str::split(c)` (also the backbone of `rsplit`): split on every
occurrence of `c`, keeping empty pieces, never returning an empty list. -/
def splitChar (c : Char) : Str → List Str
  | [] => [[]]
  | x :: xs =>
    if x == c then [] :: splitChar c xs
    else
      match splitChar c xs with
      | [] => [[x]]
      | h :: t => (x :: h) :: t

/-- src/main.rs `derive_repo_name` (lines 99-102): trim trailing `/` then
trailing `.git`, then take the last `/`-separated segment.  Rust's
`rsplit('/').next()` is the last element of the forward split; it is never
`None`, so the `unwrap_or(trimmed)` arm is modelled by the default of
`getLastD`. -/
def derive_repo_name (repo_url : Str) : Str :=
  let trimmed := trimEndGit (trimEndChar '/' repo_url)
  (splitChar '/' trimmed).getLastD trimmed

/-- src/main.rs `FlexEntry` (lines 356-361): a registry value is either a
single URL or a list of URLs. -/
inductive FlexEntry where
  | single (u : Str)
  | many (v : List Str)
deriving DecidableEq

/-- src/main.rs `cmd_hub`, flattening loop (lines 376-392): lower-case the
requested type filters, then walk the parsed registry accumulating
`(type, url)` pairs, skipping a key when the filter list is non-empty and
does not contain the lower-cased key.  The source iterates a `HashMap`;
the iteration order is modelled by the order of the input list. -/
def flattenItems (m : List (Str × FlexEntry)) (types : List Str) : List (Str × Str) :=
  let filters := types.map lowerStr
  m.foldl (fun items p =>
    if !filters.isEmpty && !filters.contains (lowerStr p.1) then items
    else
      match p.2 with
      | .single u => items ++ [(p.1, u)]
      | .many v => items ++ v.map (fun u => (p.1, u))) []

/-- Spec-side (§4.2) per-entry expansion used to state the flatten claim: a
single-URL value yields one entry, a list value yields one entry per URL,
all tagged with the key. -/
def expandEntry (p : Str × FlexEntry) : List (Str × Str) :=
  match p.2 with
  | .single u => [(p.1, u)]
  | .many v => v.map (fun u => (p.1, u))

/-- Spec-side (§4.2) keep predicate used to state the flatten claim: keep
everything when no filters are given, otherwise require case-insensitive
membership of the type tag in the filter set. -/
def keepEntry (types : List Str) (ty : Str) : Bool :=
  types.isEmpty || (types.map lowerStr).contains (lowerStr ty)

/-!
Model of the `url` crate's WHATWG parser, restricted to the shapes the
source can meet: a scheme, an optional authority (userinfo stripped, port
stripped, host lower-cased), and a path cut at `?`/`#`.  Out of modelled
scope: IP-literal hosts, percent-encoding, punycode and the `file` scheme
(none of which a GitHub repository URL uses).  Both `parse_github_owner_repo`
and `github_stars` are modelled over this same parser, exactly as both call
`url::Url::parse` in the source.
-/

/-- A parsed URL: `host` is `none` for non-authority URLs, `pathSegs` is
`none` for cannot-be-a-base URLs (where `Url::path_segments` returns `None`). -/
structure ModelUrl where
  scheme : Str
  host : Option Str
  pathSegs : Option (List Str)
deriving DecidableEq

/-- Split a string at its first `:`, returning the parts before and after. -/
def splitAtColon : Str → Option (Str × Str)
  | [] => none
  | c :: cs =>
    if c == ':' then some ([], cs)
    else (splitAtColon cs).map (fun p => (c :: p.1, p.2))

/-- Characters allowed after the first character of a URL scheme. -/
def schemeCharOk (c : Char) : Bool := c.isAlphanum || c == '+' || c == '-' || c == '.'

/-- A valid URL scheme: one ASCII letter then letters, digits, `+`, `-`, `.`. -/
def validScheme : Str → Bool
  | [] => false
  | c :: cs => c.isAlpha && cs.all schemeCharOk

/-- The WHATWG special schemes the model covers (`file` excluded, see above). -/
def specialSchemes : List Str := [str "http", str "https", str "ws", str "wss", str "ftp"]

/-- Slash characters the WHATWG parser skips before a special authority. -/
def isSlash (c : Char) : Bool := c == '/' || c == '\\'

/-- Characters ending the authority component. -/
def isAuthEnd (c : Char) : Bool := c == '/' || c == '\\' || c == '?' || c == '#'

/-- Characters ending the path component. -/
def isPathEnd (c : Char) : Bool := c == '?' || c == '#'

/-- Host-port part of an authority: everything after the last `@`. -/
def afterLastAt (auth : Str) : Str := (splitChar '@' auth).getLastD auth

/-- Drop one leading `/` from a path. -/
def dropLeadingSlash : Str → Str
  | c :: p => if c == '/' then p else c :: p
  | [] => []

/-- Path segments of a hierarchical URL: drop one leading `/`, split on `/`. -/
def pathSegsOf (path : Str) : List Str := splitChar '/' (dropLeadingSlash path)

/-- Model of `url::Url::parse`. -/
def urlParse (s : Str) : Option ModelUrl :=
  match splitAtColon s with
  | none => none
  | some (sch, rest) =>
    if validScheme sch then
      let scheme := lowerStr sch
      if specialSchemes.contains scheme then
        let rest1 := rest.dropWhile isSlash
        let auth := rest1.takeWhile (fun c => !isAuthEnd c)
        let afterAuth := rest1.dropWhile (fun c => !isAuthEnd c)
        let host := lowerStr ((afterLastAt auth).takeWhile (fun c => c != ':'))
        if host.isEmpty then none
        else
          some ⟨scheme, some host, some (pathSegsOf (afterAuth.takeWhile (fun c => !isPathEnd c)))⟩
      else
        if (str "//").isPrefixOf rest then
          let rest1 := rest.drop 2
          let auth := rest1.takeWhile (fun c => !isAuthEnd c)
          let afterAuth := rest1.dropWhile (fun c => !isAuthEnd c)
          let hostRaw := lowerStr ((afterLastAt auth).takeWhile (fun c => c != ':'))
          some ⟨scheme, if hostRaw.isEmpty then none else some hostRaw,
                some (pathSegsOf (afterAuth.takeWhile (fun c => !isPathEnd c)))⟩
        else
          some ⟨scheme, none, none⟩
    else none

/-- Model of `url::Url::domain()`: the host when it is a domain name
(IP hosts are out of modelled scope, see the section comment). -/
def ModelUrl.domain (u : ModelUrl) : Option Str := u.host

/-- The repo-segment cleanup both resolvers repeat inline
(`strip_suffix('.').or_else(|| strip_suffix(".git"))`, src/main.rs lines
520-522, 531-534, 576-578, 586-589): strip one trailing `.`, otherwise one
trailing `.git`. -/
def stripDotOrGit (repo : Str) : Str :=
  match stripSuffixOf ['.'] repo with
  | some s2 => s2
  | none =>
    match stripSuffixOf (str ".git") repo with
    | some s2 => s2
    | none => repo

/-- src/main.rs `parse_github_owner_repo` (lines 564-597). -/
def parse_github_owner_repo (link : Str) : Option (Str × Str) :=
  let lower := lowerStr link
  if !containsSub lower (str "github.com") then none
  else
    match urlParse link with
    | some parsed =>
      if (parsed.domain.getD []) ≠ str "github.com" then none
      else
        match parsed.pathSegs with
        | none => none
        | some [] => none
        | some (owner :: restSegs) =>
          match restSegs with
          | repo :: _ => some (owner, stripDotOrGit repo)
          | [] => some (owner, owner)
    | none =>
      match stripPrefixOf (str "git@github.com:") lower with
      | some rest =>
        let parts := splitChar '/' rest
        if parts.length ≥ 2 then
          some (parts.getD 0 [], stripDotOrGit (parts.getD 1 []))
        else if parts.length = 1 then
          some (parts.getD 0 [], parts.getD 0 [])
        else none
      | none => none

/-- The parsing phase of src/main.rs `github_stars` (lines 499-542): the same
extraction as `parse_github_owner_repo`, but every failure carries the error
message the source attaches (`bail!`, `ok_or_else`, and the final
`try_owner_repo.ok_or_else` for the unmatched-shape case). -/
def github_stars_parse (link : Str) : Except Str (Str × Str) :=
  let lower := lowerStr link
  if !containsSub lower (str "github.com") then .error (str "not github")
  else
    match urlParse link with
    | some parsed =>
      if (parsed.domain.getD []) ≠ str "github.com" then .error (str "not github")
      else
        match parsed.pathSegs with
        | none => .error (str "no path")
        | some [] => .error (str "no owner")
        | some (owner :: restSegs) =>
          match restSegs with
          | repo :: _ => .ok (owner, stripDotOrGit repo)
          | [] => .ok (owner, owner)
    | none =>
      match stripPrefixOf (str "git@github.com:") lower with
      | some rest =>
        let parts := splitChar '/' rest
        if parts.length ≥ 2 then
          .ok (parts.getD 0 [], stripDotOrGit (parts.getD 1 []))
        else if parts.length = 1 then
          .ok (parts.getD 0 [], parts.getD 0 [])
        else .error (str "unrecognized github url")
      | none => .error (str "unrecognized github url")

/-- Spec-side character class used to state the owner-only claims: the
ASCII characters GitHub allows in account names (lower-case letters,
digits, `-`). -/
def ownerChar (c : Char) : Prop :=
  97 ≤ c.toNat ∧ c.toNat ≤ 122 ∨ 48 ≤ c.toNat ∧ c.toNat ≤ 57 ∨ c = '-'

instance : DecidablePred ownerChar := fun c => by unfold ownerChar; infer_instance

/-!
Model of `serde_json::Value` and of the blocking HTTP transport.  A request
either fails at the transport level or yields a status code and a body; the
body is `none` when it cannot be decoded as JSON (`resp.json()` failing).
JSON numbers are modelled as integers (`stargazers_count`/`stargazerCount`
are integral; floating-point numbers, on which `as_u64` returns `None`
anyway, are out of modelled scope).
-/

/-- Model of `serde_json::Value`; objects are field lists with lookup on the
first matching key (the real map holds each key once). -/
inductive Json where
  | null
  | jbool (b : Bool)
  | jnum (n : Int)
  | jstr (s : Str)
  | jarr (elems : List Json)
  | jobj (fields : List (Str × Json))

/-- `Value::get(key)` on an object (and `Map::get` on its field list). -/
def jsonGet (v : Json) (key : Str) : Option Json :=
  match v with
  | .jobj fields => (fields.find? (fun p => p.1 == key)).map Prod.snd
  | _ => none

/-- `Value::as_object()`. -/
def asObject (v : Json) : Option (List (Str × Json)) :=
  match v with
  | .jobj fields => some fields
  | _ => none

/-- `Value::as_u64()`: an integer in the `u64` range. -/
def asU64 (v : Json) : Option Nat :=
  match v with
  | .jnum n => if 0 ≤ n ∧ n < 2 ^ 64 then some n.toNat else none
  | _ => none

/-- One HTTP exchange, seen from the caller. -/
inductive HttpResult where
  | transportFail
  | response (status : Nat) (body : Option Json)

/-- `reqwest::StatusCode::is_success()`. -/
def statusSuccess (status : Nat) : Bool := 200 ≤ status && status < 300

/-- src/main.rs `github_stars` (lines 499-562): the parsing phase
(`github_stars_parse`) followed by one GET to the repository detail
endpoint, reading `stargazers_count` with default `0`.  `net` maps the
request URL to the transport's answer. -/
def github_stars (net : Str → HttpResult) (link : Str) : Except Str Nat :=
  match github_stars_parse link with
  | .error e => .error e
  | .ok (owner, repo) =>
    let api := str "https://api.github.com/repos/" ++ owner ++ ['/'] ++ repo
    match net api with
    | .transportFail => .error (str "GET failed")
    | .response status body =>
      if !statusSuccess status then .error (str "bad status")
      else
        match body with
        | none => .error (str "parsing github json")
        | some v => .ok (((jsonGet v (str "stargazers_count")).bind asU64).getD 0)

/-- Fuel-driven slice chunking; fuel `l.length` suffices whenever `n ≥ 1`. -/
def chunksOfAux (n : Nat) : Nat → List α → List (List α)
  | _, [] => []
  | 0, _ :: _ => []
  | fuel + 1, x :: xs => List.take n (x :: xs) :: chunksOfAux n fuel (List.drop n (x :: xs))

/-- Rust `slice::chunks(n)`: consecutive chunks of size `n`, the last one
possibly shorter; `[]` yields no chunks. -/
def chunksOf (n : Nat) (l : List α) : List (List α) := chunksOfAux n l.length l

/-- The GraphQL alias `r<i>` given to the `i`-th repository of a chunk. -/
def aliasStr (i : Nat) : Str := 'r' :: (Nat.repr i).data

/-- Rust `str::replace('"', "\\\"")` used on owner/repo before splicing
them into the query. -/
def escapeQuotes (s : Str) : Str :=
  s.flatMap (fun c => if c == '"' then ['\\', '"'] else [c])

/-- One aliased repository sub-query of the bulk request
(src/main.rs lines 619-627). -/
def repoQueryPart (i : Nat) (owner repo : Str) : Str :=
  aliasStr i ++ str ": repository(owner:\"" ++ escapeQuotes owner ++
    str "\", name:\"" ++ escapeQuotes repo ++ str "\") \x7b stargazerCount \x7d "

/-- The whole GraphQL query for one chunk of `(link, (owner, repo))` entries
(src/main.rs lines 618-628). -/
def buildQuery (chunk : List (Str × (Str × Str))) : Str :=
  str "query \x7b " ++
    chunk.enum.flatMap (fun p => repoQueryPart p.1 p.2.2.1 p.2.2.2) ++ str "\x7d"

/-- `HashMap::get` on the star map, modelled as first-match lookup in an
association list. -/
def mapGet (m : List (Str × Nat)) (k : Str) : Option Nat :=
  (m.find? (fun p => p.1 == k)).map Prod.snd

/-- `HashMap::insert` on the star map: replace the value of an existing key,
otherwise append the binding. -/
def mapInsert (m : List (Str × Nat)) (k : Str) (v : Nat) : List (Str × Nat) :=
  if m.any (fun p => p.1 == k) then
    m.map (fun p => if p.1 == k then (k, v) else p)
  else m ++ [(k, v)]

/-- Star count read back for alias `r<i>` from a chunk's `data` object
(src/main.rs lines 643-648):
`data.get(alias).and_then(get "stargazerCount").and_then(as_u64).unwrap_or(0)`. -/
def aliasCount (data : List (Str × Json)) (i : Nat) : Nat :=
  ((((data.find? (fun p => p.1 == aliasStr i)).map Prod.snd).bind
      (fun o => jsonGet o (str "stargazerCount"))).bind asU64).getD 0

/-- The per-chunk insertion loop (src/main.rs lines 642-650): for the `i`-th
entry of the chunk, insert its link with the count of alias `r<i>`. -/
def processChunk (data : List (Str × Json)) (chunk : List (Str × (Str × Str)))
    (out : List (Str × Nat)) : List (Str × Nat) :=
  chunk.enum.foldl (fun acc p => mapInsert acc p.2.1 (aliasCount data p.1)) out

/-- The chunk loop of `github_stars_batch` (src/main.rs lines 617-652): for
each chunk issue the aggregated query; abort on transport failure,
non-success status or undecodable body; when the decoded body has no
top-level `data` object, skip the chunk and continue. -/
def runChunks (net : Str → HttpResult) :
    List (List (Str × (Str × Str))) → List (Str × Nat) → Except Str (List (Str × Nat))
  | [], out => .ok out
  | chunk :: rest, out =>
    match net (buildQuery chunk) with
    | .transportFail => .error (str "graphql request failed")
    | .response status body =>
      if !statusSuccess status then .error (str "graphql status")
      else
        match body with
        | none => .error (str "parse graphql json")
        | some v =>
          match (jsonGet v (str "data")).bind asObject with
          | some data => runChunks net rest (processChunk data chunk out)
          | none => runChunks net rest out

/-- The resolution pass of `github_stars_batch` (src/main.rs lines 600-605):
keep each link that `parse_github_owner_repo` resolves, paired with its
`(owner, repo)`. -/
def resolvedEntries (links : List Str) : List (Str × (Str × Str)) :=
  links.filterMap (fun l => (parse_github_owner_repo l).map (fun p => (l, p)))

/-- src/main.rs `github_stars_batch` (lines 599-655).  The token only sets
the `Authorization` header of each request, which the transport model `net`
already absorbs. -/
def github_stars_batch (net : Str → HttpResult) (links : List Str)
    (_token : Option Str) : Except Str (List (Str × Nat)) :=
  let entries := resolvedEntries links
  if entries.isEmpty then .ok []
  else runChunks net (chunksOf 50 entries) []

/-- The star-collection phase of `cmd_hub` (src/main.rs lines 394-423): with
a token, try the bulk path and on its failure fall back (setting the
`warn_graphql_failed` flag) to one `github_stars` call per item with
`unwrap_or(0)`; without a token, go directly to the per-item path.  `gnet`
serves the GraphQL requests and `rnet` the per-item REST requests. -/
def collectStars (token : Option Str) (gnet rnet : Str → HttpResult)
    (items : List (Str × Str)) : List (Str × Str × Nat) × Bool :=
  match token with
  | some t =>
    match github_stars_batch gnet (items.map (fun p => p.2)) (some t) with
    | .ok stars_map =>
      (items.map (fun p => (p.1, p.2, (mapGet stars_map p.2).getD 0)), false)
    | .error _ =>
      (items.map (fun p => (p.1, p.2, ((github_stars rnet p.2).toOption).getD 0)), true)
  | none =>
    (items.map (fun p => (p.1, p.2, ((github_stars rnet p.2).toOption).getD 0)), false)

/-- Placeholder entry used as the default of out-of-range `getD` reads in
proofs about the chunked entry lists. -/
def dummyEntry : Str × (Str × Str) := ([], ([], []))

/-- The sort order of `detailed.sort_by(|a, b| b.2.cmp(&a.2))`
(src/main.rs line 430): descending star count. -/
def starsGe (a b : Str × Str × Nat) : Prop := b.2.2 ≤ a.2.2

instance : DecidableRel starsGe := fun a b => Nat.decLe b.2.2 a.2.2

instance : IsTotal (Str × Str × Nat) starsGe :=
  ⟨fun a b => Nat.le_total b.2.2 a.2.2⟩

instance : IsTrans (Str × Str × Nat) starsGe :=
  ⟨fun _ _ _ h1 h2 => Nat.le_trans h2 h1⟩

/-- src/main.rs line 430: `detailed.sort_by(|a, b| b.2.cmp(&a.2))`.  Rust's
`sort_by` is a stable sort; a stable sort's output is uniquely determined by
the comparator, so it is modelled by the (stable) insertion sort. -/
def sortDetailed (detailed : List (Str × Str × Nat)) : List (Str × Str × Nat) :=
  List.insertionSort starsGe detailed

/-- The table-row loop of `cmd_hub` (src/main.rs lines 436-442): rank =
1-based position after the sort, stars, installation flag for the derived
repo name (the filesystem check is the external collaborator `isInstalled`),
and the source link. -/
def tableRows (isInstalled : Str → Bool) (detailed : List (Str × Str × Nat)) :
    List (Nat × Nat × Bool × Str) :=
  (sortDetailed detailed).enum.map
    (fun p => (p.1 + 1, p.2.2.2, isInstalled (derive_repo_name p.2.2.1), p.2.2.1))

/-! ### Helper lemmas about the string model -/

theorem splitChar_ne_nil (c : Char) (l : Str) : splitChar c l ≠ [] := by
  cases l with
  | nil => simp [splitChar]
  | cons x xs =>
    simp only [splitChar]
    split
    · exact List.cons_ne_nil _ _
    · split <;> exact List.cons_ne_nil _ _

theorem getLastD_congr {α : Type} {l : List α} (h : l ≠ []) (d d' : α) :
    l.getLastD d = l.getLastD d' := by
  cases l with
  | nil => exact absurd rfl h
  | cons x xs => rw [List.getLastD_cons, List.getLastD_cons]

theorem getLastD_append {α : Type} (u : List α) {v : List α} (h : v ≠ []) (d : α) :
    (u ++ v).getLastD d = v.getLastD d := by
  induction u generalizing d with
  | nil => rfl
  | cons x u ih =>
    rw [List.cons_append, List.getLastD_cons, ih x]
    exact getLastD_congr h x d

theorem splitChar_append (c : Char) (a b : Str) :
    splitChar c (a ++ c :: b) = splitChar c a ++ splitChar c b := by
  induction a with
  | nil => simp [splitChar]
  | cons x a ih =>
    obtain ⟨h1, t1, ha⟩ := List.exists_cons_of_ne_nil (splitChar_ne_nil c a)
    cases hx : (x == c) with
    | true => simp [splitChar, hx, ih]
    | false => simp [splitChar, hx, ih, ha]

theorem exists_last_occ {c : Char} {l : Str} (h : c ∈ l) :
    ∃ a b, l = a ++ c :: b ∧ c ∉ b := by
  induction l with
  | nil => cases h
  | cons x xs ih =>
    by_cases hc : c ∈ xs
    · obtain ⟨a, b, hab, hb⟩ := ih hc
      exact ⟨x :: a, b, by rw [hab, List.cons_append], hb⟩
    · have hx : x = c := by
        rcases List.mem_cons.mp h with h1 | h1
        · exact h1.symm
        · exact absurd h1 hc
      exact ⟨[], xs, by rw [hx, List.nil_append], hc⟩

theorem splitChar_no_sep {c : Char} {l : Str} (h : c ∉ l) : splitChar c l = [l] := by
  induction l with
  | nil => rfl
  | cons x xs ih =>
    have hx : (x == c) = false := by
      simp only [beq_eq_false_iff_ne]
      rintro rfl
      exact h (List.mem_cons_self _ _)
    have hxs : c ∉ xs := fun hm => h (List.mem_cons_of_mem _ hm)
    simp [splitChar, hx, ih hxs]

theorem splitChar_getLastD_of_mem {c : Char} {l : Str} (h : c ∈ l) :
    ∃ a, a ++ c :: (splitChar c l).getLastD [] = l ∧ c ∉ (splitChar c l).getLastD [] := by
  obtain ⟨a, b, hab, hb⟩ := exists_last_occ h
  rw [hab, splitChar_append, getLastD_append _ (splitChar_ne_nil c b), splitChar_no_sep hb]
  exact ⟨a, rfl, hb⟩

theorem trimEndChar_split (c : Char) (s : Str) :
    ∃ n, s = trimEndChar c s ++ List.replicate n c := by
  refine ⟨(s.reverse.takeWhile (fun x => x == c)).length, ?_⟩
  have hrep : s.reverse.takeWhile (fun x => x == c) =
      List.replicate (s.reverse.takeWhile (fun x => x == c)).length c :=
    List.eq_replicate_of_mem (fun b hb => by
      have hpb := @List.mem_takeWhile_imp Char (fun x => x == c) s.reverse b hb
      exact eq_of_beq hpb)
  have htake : (s.reverse.takeWhile (fun x => x == c)).reverse =
      List.replicate (s.reverse.takeWhile (fun x => x == c)).length c := by
    conv_lhs => rw [hrep]
    rw [List.reverse_replicate]
  unfold trimEndChar
  conv_lhs => rw [← s.reverse_reverse,
    ← List.takeWhile_append_dropWhile (fun x => x == c) s.reverse]
  rw [List.reverse_append, htake]

theorem trimEndChar_getLast (c : Char) (s : Str) :
    (trimEndChar c s).getLast? ≠ some c := by
  rw [trimEndChar, List.getLast?_reverse]
  intro hhead
  have := List.head?_dropWhile_not (fun x => x == c) s.reverse
  rw [hhead] at this
  simp at this

theorem stripSuffixOf_eq {pat s t : Str} (h : stripSuffixOf pat s = some t) :
    s = t ++ pat := by
  unfold stripSuffixOf at h
  split at h
  · rename_i hs
    obtain ⟨u, hu⟩ := List.isSuffixOf_iff_suffix.mp hs
    injection h with h
    subst h
    rw [← hu, List.length_append, Nat.add_sub_cancel, List.take_left]
  · cases h

theorem flatten_replicate_comm (k : Nat) (p : Str) :
    (List.replicate k p).flatten ++ p = p ++ (List.replicate k p).flatten := by
  induction k with
  | zero => simp
  | succ k ih =>
    rw [List.replicate_succ, List.flatten_cons, List.append_assoc, ih, ← List.append_assoc]

theorem trimEndGitAux_spec : ∀ fuel (s : Str), s.length ≤ fuel →
    (∃ k, s = trimEndGitAux fuel s ++ (List.replicate k (str ".git")).flatten) ∧
      (str ".git").isSuffixOf (trimEndGitAux fuel s) = false := by
  intro fuel
  induction fuel with
  | zero =>
    intro s hs
    have hnil : s = [] := List.eq_nil_of_length_eq_zero (Nat.le_zero.mp hs)
    subst hnil
    exact ⟨⟨0, by simp [trimEndGitAux]⟩, by decide⟩
  | succ n ih =>
    intro s hs
    cases hstrip : stripSuffixOf (str ".git") s with
    | none =>
      have hsuf : (str ".git").isSuffixOf s = false := by
        unfold stripSuffixOf at hstrip
        split at hstrip
        · cases hstrip
        · rename_i hns
          exact Bool.eq_false_iff.mpr hns
      constructor
      · exact ⟨0, by simp [trimEndGitAux, hstrip]⟩
      · simp [trimEndGitAux, hstrip, hsuf]
    | some s2 =>
      have hs2 : s = s2 ++ str ".git" := stripSuffixOf_eq hstrip
      have hlen : s2.length ≤ n := by
        have hl := congrArg List.length hs2
        have hl4 : (str ".git").length = 4 := rfl
        simp only [List.length_append] at hl
        omega
      obtain ⟨⟨k, hk⟩, hsuf⟩ := ih s2 hlen
      refine ⟨⟨k + 1, ?_⟩, ?_⟩
      · rw [List.replicate_succ, List.flatten_cons]
        conv_lhs => rw [hs2, hk]
        rw [List.append_assoc, flatten_replicate_comm, ← List.append_assoc, ← List.append_assoc]
        simp [trimEndGitAux, hstrip]
      · simpa [trimEndGitAux, hstrip] using hsuf

theorem trimEndGit_spec (s : Str) :
    (∃ k, s = trimEndGit s ++ (List.replicate k (str ".git")).flatten) ∧
      (str ".git").isSuffixOf (trimEndGit s) = false :=
  trimEndGitAux_spec s.length s le_rfl

/-! ### Claim theorems -/

/-- C9: the local-name derivation strips all repeated trailing `/`, then all
repeated trailing `.git` suffixes, then takes the last `/`-separated segment
of the trimmed string — the whole trimmed string when it contains no `/`;
for example a URL ending in `repo.git.git` derives the name `repo`. -/
theorem c9_derive_repo_name (s : Str) :
    (∃ n, s = trimEndChar '/' s ++ List.replicate n '/') ∧
    (trimEndChar '/' s).getLast? ≠ some '/' ∧
    (∃ k, trimEndChar '/' s =
        trimEndGit (trimEndChar '/' s) ++ (List.replicate k (str ".git")).flatten) ∧
    (str ".git").isSuffixOf (trimEndGit (trimEndChar '/' s)) = false ∧
    ('/' ∉ trimEndGit (trimEndChar '/' s) →
        derive_repo_name s = trimEndGit (trimEndChar '/' s)) ∧
    ('/' ∈ trimEndGit (trimEndChar '/' s) →
        ∃ a, a ++ '/' :: derive_repo_name s = trimEndGit (trimEndChar '/' s) ∧
          '/' ∉ derive_repo_name s) ∧
    derive_repo_name (str "https://github.com/acme/repo.git.git") = str "repo" := by
  refine ⟨trimEndChar_split '/' s, trimEndChar_getLast '/' s,
    (trimEndGit_spec (trimEndChar '/' s)).1, (trimEndGit_spec (trimEndChar '/' s)).2,
    ?_, ?_, by decide⟩
  · intro hmem
    rw [derive_repo_name, splitChar_no_sep hmem]
    rfl
  · intro hmem
    rw [derive_repo_name]
    rw [getLastD_congr (splitChar_ne_nil _ _) _ []]
    exact splitChar_getLastD_of_mem hmem

/-- C9 witness: a concrete URL whose trimmed form still contains `/`,
exercising the last-segment decomposition. -/
theorem c9_derive_repo_name_witness :
    ∃ a, a ++ '/' :: derive_repo_name (str "a/b.git.git") =
        trimEndGit (trimEndChar '/' (str "a/b.git.git")) ∧
      '/' ∉ derive_repo_name (str "a/b.git.git") :=
  (c9_derive_repo_name (str "a/b.git.git")).2.2.2.2.2.1 (by decide)

/-- C6: the resolver is deterministic, resolves both the HTTPS form and the
SSH shorthand of acme/tool to ("acme", "tool"), and strips exactly one
trailing `.` or one trailing `.git` suffix from the repo segment. -/
theorem c6_resolver_examples :
    (∀ u : Str, parse_github_owner_repo u = parse_github_owner_repo u) ∧
    parse_github_owner_repo (str "https://github.com/acme/tool") =
      some (str "acme", str "tool") ∧
    parse_github_owner_repo (str "git@github.com:acme/tool.git") =
      some (str "acme", str "tool") ∧
    parse_github_owner_repo (str "https://github.com/acme/tool.git") =
      some (str "acme", str "tool") ∧
    parse_github_owner_repo (str "https://github.com/acme/tool.") =
      some (str "acme", str "tool") ∧
    parse_github_owner_repo (str "git@github.com:acme/tool.") =
      some (str "acme", str "tool") ∧
    parse_github_owner_repo (str "https://github.com/acme/tool.git.") =
      some (str "acme", str "tool.git") :=
  ⟨fun _ => rfl, by decide, by decide, by decide, by decide, by decide, by decide⟩

theorem map_isEmpty {α β : Type} (f : α → β) (l : List α) :
    (l.map f).isEmpty = l.isEmpty := by
  cases l <;> rfl

theorem foldl_body_flatMap {α β : Type} (g : α → List β) (body : List β → α → List β)
    (hbody : ∀ acc x, body acc x = acc ++ g x) :
    ∀ (l : List α) (acc : List β), l.foldl body acc = acc ++ l.flatMap g := by
  intro l
  induction l with
  | nil => intro acc; simp
  | cons x xs ih =>
    intro acc
    rw [List.foldl_cons, hbody, ih, List.flatMap_cons, List.append_assoc]

theorem filter_flatMap {α β : Type} (f : α → Bool) (g : α → List β) (l : List α) :
    (l.filter f).flatMap g = l.flatMap (fun x => if f x then g x else []) := by
  induction l with
  | nil => rfl
  | cons x xs ih =>
    cases hf : f x <;> simp [List.filter_cons, hf, ih]

theorem enumFrom_map_fst_succ {α : Type} : ∀ (s : Nat) (l : List α),
    (List.enumFrom s l).map (fun p => p.1 + 1) = List.range' (s + 1) l.length := by
  intro s l
  induction l generalizing s with
  | nil => rfl
  | cons x xs ih => simp [List.enumFrom, List.range'_succ, ih]

/-- C5: flattening keeps an entry iff its type tag is, case-insensitively, a
member of the non-empty filter set — everything when the set is empty; a
single-URL value yields exactly one entry, a list value of length k yields
exactly k entries all sharing the key as type tag. -/
theorem c5_flatten_filter (m : List (Str × FlexEntry)) (types : List Str) :
    flattenItems m types = (m.filter (fun p => keepEntry types p.1)).flatMap expandEntry ∧
    (∀ ty, keepEntry types ty = true ↔
      (types = [] ∨ ∃ f ∈ types, lowerStr f = lowerStr ty)) ∧
    (∀ ty u, expandEntry (ty, .single u) = [(ty, u)]) ∧
    (∀ ty v, (expandEntry (ty, .many v)).length = v.length ∧
      ∀ e ∈ expandEntry (ty, .many v), e.1 = ty) := by
  refine ⟨?_, ?_, fun ty u => rfl, fun ty v => ⟨by simp [expandEntry], ?_⟩⟩
  · have hbody : ∀ (acc : List (Str × Str)) (p : Str × FlexEntry),
        (if !(types.map lowerStr).isEmpty && !(types.map lowerStr).contains (lowerStr p.1)
          then acc
          else match p.2 with
            | .single u => acc ++ [(p.1, u)]
            | .many v => acc ++ v.map (fun u => (p.1, u))) =
          acc ++ (if keepEntry types p.1 then expandEntry p else []) := by
      intro acc p
      have hskip : (!(types.map lowerStr).isEmpty && !(types.map lowerStr).contains (lowerStr p.1))
          = !keepEntry types p.1 := by
        rw [keepEntry, map_isEmpty, Bool.not_or]
      rw [hskip]
      cases hk : keepEntry types p.1 with
      | false => simp
      | true =>
        simp only [Bool.not_true, Bool.false_eq_true, if_false, if_true, expandEntry]
        cases p.2 <;> rfl
    rw [flattenItems, foldl_body_flatMap _ _ hbody m [], List.nil_append, filter_flatMap]
  · intro ty
    rw [keepEntry, Bool.or_eq_true, List.isEmpty_iff]
    constructor
    · rintro (h | h)
      · exact Or.inl h
      · right
        have hm : lowerStr ty ∈ types.map lowerStr := by simpa using h
        obtain ⟨f, hf, hfe⟩ := List.mem_map.mp hm
        exact ⟨f, hf, hfe⟩
    · rintro (h | ⟨f, hf, hfe⟩)
      · exact Or.inl h
      · right
        simpa using List.mem_map.mpr ⟨f, hf, hfe⟩
  · intro e he
    simp only [expandEntry, List.mem_map] at he
    obtain ⟨u, _, rfl⟩ := he
    rfl

/-- C5 witness: a concrete registry with one single-URL key and one
two-URL key, filtered case-insensitively. -/
theorem c5_flatten_filter_witness :
    flattenItems [(str "nvim", .single (str "u1")), (str "Tmux", .many [str "u2", str "u3"])]
        [str "TMUX"] =
      (List.filter (fun p => keepEntry [str "TMUX"] p.1)
        [(str "nvim", .single (str "u1")),
          (str "Tmux", .many [str "u2", str "u3"])]).flatMap expandEntry ∧
    (keepEntry [str "TMUX"] (str "Tmux") = true ↔
      ([str "TMUX"] = ([] : List Str) ∨
        ∃ f ∈ [str "TMUX"], lowerStr f = lowerStr (str "Tmux"))) :=
  ⟨(c5_flatten_filter [(str "nvim", .single (str "u1")),
      (str "Tmux", .many [str "u2", str "u3"])] [str "TMUX"]).1,
    (c5_flatten_filter [(str "nvim", .single (str "u1")),
      (str "Tmux", .many [str "u2", str "u3"])] [str "TMUX"]).2.1 (str "Tmux")⟩

/-- C4: the ranked output is the stable descending sort of the detailed
list by star count with rank = 1-based index in the sorted order; for star
counts [3, 0, 10, 10] the two 10-entries come first in their original
relative order, then 3, then 0. -/
theorem c4_ranked_output (isInstalled : Str → Bool) (detailed : List (Str × Str × Nat)) :
    (sortDetailed detailed).Perm detailed ∧
    (sortDetailed detailed).Sorted starsGe ∧
    (∀ a b, a.2.2 = b.2.2 → List.Sublist [a, b] detailed →
      List.Sublist [a, b] (sortDetailed detailed)) ∧
    (tableRows isInstalled detailed).map (fun r => r.1) = List.range' 1 detailed.length ∧
    sortDetailed
        [(str "t1", str "u1", 3), (str "t2", str "u2", 0),
          (str "t3", str "u3", 10), (str "t4", str "u4", 10)] =
      [(str "t3", str "u3", 10), (str "t4", str "u4", 10),
        (str "t1", str "u1", 3), (str "t2", str "u2", 0)] := by
  refine ⟨List.perm_insertionSort starsGe detailed, List.sorted_insertionSort starsGe detailed,
    ?_, ?_, by decide⟩
  · intro a b hab hsub
    exact List.pair_sublist_insertionSort hab.ge hsub
  · rw [tableRows, List.map_map]
    have hcomp : ((fun (r : Nat × Nat × Bool × Str) => r.1) ∘
        (fun p : Nat × (Str × Str × Nat) =>
          (p.1 + 1, p.2.2.2, isInstalled (derive_repo_name p.2.2.1), p.2.2.1))) =
        fun p : Nat × (Str × Str × Nat) => p.1 + 1 := rfl
    rw [hcomp]
    have henum : (sortDetailed detailed).enum = List.enumFrom 0 (sortDetailed detailed) := rfl
    rw [henum, enumFrom_map_fst_succ 0 (sortDetailed detailed), sortDetailed,
      List.length_insertionSort]

/-- C4 witness: the two equal-starred entries of the example keep their
original relative order in the sorted output. -/
theorem c4_ranked_output_witness :
    List.Sublist [(str "t3", str "u3", 10), (str "t4", str "u4", 10)]
      (sortDetailed [(str "t1", str "u1", 3), (str "t2", str "u2", 0),
        (str "t3", str "u3", 10), (str "t4", str "u4", 10)]) :=
  (c4_ranked_output (fun _ => false) _).2.2.1 _ _ rfl (by decide)

/-- The two resolver paths extract identical pairs; shared between the C1
and C2 developments. -/
theorem ghParse_toOption_agree (link : Str) :
    (github_stars_parse link).toOption = parse_github_owner_repo link := by
  simp only [github_stars_parse, parse_github_owner_repo]
  cases hc : containsSub (lowerStr link) (str "github.com") with
  | false => simp [Except.toOption]
  | true =>
    simp only [Bool.not_true, Bool.false_eq_true, if_false]
    cases hu : urlParse link with
    | some parsed =>
      by_cases hd : (ModelUrl.domain parsed).getD [] = str "github.com"
      · simp only [hd, ne_eq, not_true_eq_false, if_false]
        cases hs : parsed.pathSegs with
        | none => rfl
        | some segs =>
          cases segs with
          | nil => rfl
          | cons owner rest =>
            cases rest <;> rfl
      · simp only [ne_eq, hd, not_false_eq_true, if_true]
        rfl
    | none =>
      cases hp : stripPrefixOf (str "git@github.com:") (lowerStr link) with
      | none => rfl
      | some rest =>
        by_cases h2 : (splitChar '/' rest).length ≥ 2
        · simp only [h2, if_true]
          rfl
        · simp only [h2, if_false]
          by_cases h1 : (splitChar '/' rest).length = 1
          · simp [h1, Except.toOption]
          · simp [h1, Except.toOption]

/-- C2: the owner/repo extraction of the bulk path and the parsing phase of
the per-item fallback agree on every input URL: `github_stars_parse`
succeeds exactly with the pair `parse_github_owner_repo` returns, and fails
exactly when it returns none. -/
theorem c2_parse_paths_agree (link : Str) :
    (github_stars_parse link).toOption = parse_github_owner_repo link :=
  ghParse_toOption_agree link


theorem ownerChar_facts {c : Char} (h : ownerChar c) :
    c ≠ '/' ∧ c ≠ '?' ∧ c ≠ '#' ∧ Char.toLower c = c := by
  refine ⟨?_, ?_, ?_, ?_⟩
  · rintro rfl; exact absurd h (by decide)
  · rintro rfl; exact absurd h (by decide)
  · rintro rfl; exact absurd h (by decide)
  · rcases h with h | h | h
    · unfold Char.toLower
      rw [if_neg]
      omega
    · unfold Char.toLower
      rw [if_neg]
      omega
    · subst h; decide

theorem splitAtColon_append {a : Str} (b : Str) (h : ':' ∉ a) :
    splitAtColon (a ++ ':' :: b) = some (a, b) := by
  induction a with
  | nil => simp [splitAtColon]
  | cons x a ih =>
    have hx : (x == ':') = false := by
      simp only [beq_eq_false_iff_ne]
      rintro rfl
      exact h (List.mem_cons_self _ _)
    have ha : ':' ∉ a := fun hm => h (List.mem_cons_of_mem _ hm)
    simp [splitAtColon, hx, ih ha]

theorem lowerStr_fixed {s : Str} (h : ∀ c ∈ s, Char.toLower c = c) : lowerStr s = s := by
  induction s with
  | nil => rfl
  | cons c cs ih =>
    show Char.toLower c :: cs.map Char.toLower = c :: cs
    rw [h c (List.mem_cons_self _ _)]
    congr 1
    exact ih (fun x hx => h x (List.mem_cons_of_mem _ hx))

theorem lowerStr_append (a b : Str) : lowerStr (a ++ b) = lowerStr a ++ lowerStr b :=
  List.map_append _ a b

theorem isPrefixOf_append_right {a s : Str} (b : Str) (h : a.isPrefixOf s = true) :
    a.isPrefixOf (s ++ b) = true := by
  rw [List.isPrefixOf_iff_prefix] at h ⊢
  exact h.trans (List.prefix_append s b)

theorem containsSub_nil (l : Str) : containsSub l [] = true := by
  cases l with
  | nil => rfl
  | cons x xs => simp [containsSub, List.isPrefixOf]

theorem containsSub_append_left {a : Str} (b : Str) {pat : Str}
    (h : containsSub a pat = true) : containsSub (a ++ b) pat = true := by
  induction a with
  | nil =>
    have hp : pat = [] := by simpa [containsSub, List.isEmpty_iff] using h
    subst hp
    exact containsSub_nil ([] ++ b)
  | cons x a ih =>
    simp only [containsSub, Bool.or_eq_true] at h
    show containsSub ((x :: a) ++ b) pat = true
    rw [List.cons_append]
    simp only [containsSub, Bool.or_eq_true]
    rcases h with h | h
    · refine Or.inl ?_
      have h2 := isPrefixOf_append_right b h
      rwa [List.cons_append] at h2
    · exact Or.inr (ih h)

theorem stripPrefixOf_append (pat b : Str) : stripPrefixOf pat (pat ++ b) = some b := by
  rw [stripPrefixOf, if_pos, List.drop_left]
  exact List.isPrefixOf_iff_prefix.mpr (List.prefix_append pat b)

theorem urlParse_github_owner (owner : Str) (hchar : ∀ c ∈ owner, ownerChar c) :
    urlParse (str "https://github.com/" ++ owner) =
      some ⟨str "https", some (str "github.com"), some [owner]⟩ := by
  have hsplit : splitAtColon (str "https://github.com/" ++ owner) =
      some (str "https", str "//github.com/" ++ owner) := by
    rw [show str "https://github.com/" ++ owner =
      str "https" ++ ':' :: (str "//github.com/" ++ owner) from rfl]
    exact splitAtColon_append _ (by decide)
  have hvs : validScheme (str "https") = true := by decide
  have hspec : specialSchemes.contains (str "https") = true := by decide
  have hdrop : List.dropWhile isSlash (str "//github.com/" ++ owner) =
      str "github.com/" ++ owner := by
    show List.dropWhile isSlash
      ('/' :: '/' :: ('g' :: 'i' :: 't' :: 'h' :: 'u' :: 'b' :: '.' :: 'c' :: 'o' :: 'm' :: '/' :: owner)) =
        'g' :: 'i' :: 't' :: 'h' :: 'u' :: 'b' :: '.' :: 'c' :: 'o' :: 'm' :: '/' :: owner
    rw [List.dropWhile_cons_of_pos (by decide), List.dropWhile_cons_of_pos (by decide),
      List.dropWhile_cons_of_neg (by decide)]
  have htake : List.takeWhile (fun c => !isAuthEnd c) (str "github.com/" ++ owner) =
      str "github.com" := by
    show List.takeWhile (fun c => !isAuthEnd c)
      ('g' :: 'i' :: 't' :: 'h' :: 'u' :: 'b' :: '.' :: 'c' :: 'o' :: 'm' :: '/' :: owner) = str "github.com"
    rw [List.takeWhile_cons_of_pos (by decide), List.takeWhile_cons_of_pos (by decide),
      List.takeWhile_cons_of_pos (by decide), List.takeWhile_cons_of_pos (by decide),
      List.takeWhile_cons_of_pos (by decide), List.takeWhile_cons_of_pos (by decide),
      List.takeWhile_cons_of_pos (by decide), List.takeWhile_cons_of_pos (by decide),
      List.takeWhile_cons_of_pos (by decide), List.takeWhile_cons_of_pos (by decide),
      List.takeWhile_cons_of_neg (by decide)]
    rfl
  have hdropA : List.dropWhile (fun c => !isAuthEnd c) (str "github.com/" ++ owner) =
      '/' :: owner := by
    show List.dropWhile (fun c => !isAuthEnd c)
      ('g' :: 'i' :: 't' :: 'h' :: 'u' :: 'b' :: '.' :: 'c' :: 'o' :: 'm' :: '/' :: owner) = '/' :: owner
    rw [List.dropWhile_cons_of_pos (by decide), List.dropWhile_cons_of_pos (by decide),
      List.dropWhile_cons_of_pos (by decide), List.dropWhile_cons_of_pos (by decide),
      List.dropWhile_cons_of_pos (by decide), List.dropWhile_cons_of_pos (by decide),
      List.dropWhile_cons_of_pos (by decide), List.dropWhile_cons_of_pos (by decide),
      List.dropWhile_cons_of_pos (by decide), List.dropWhile_cons_of_pos (by decide),
      List.dropWhile_cons_of_neg (by decide)]
  have hhost : lowerStr (List.takeWhile (fun c => c != ':') (afterLastAt (str "github.com"))) =
      str "github.com" := by decide
  have hempty : (str "github.com").isEmpty = false := by decide
  have hpathtake : List.takeWhile (fun c => !isPathEnd c) ('/' :: owner) = '/' :: owner := by
    rw [List.takeWhile_cons_of_pos (by decide)]
    congr 1
    exact List.takeWhile_eq_self_iff.mpr (fun c hc => by
      obtain ⟨-, h2, h3, -⟩ := ownerChar_facts (hchar c hc)
      simp [isPathEnd, h2, h3])
  have hsegs : pathSegsOf ('/' :: owner) = [owner] := by
    rw [pathSegsOf]
    have hdl : dropLeadingSlash ('/' :: owner) = owner := by simp [dropLeadingSlash]
    rw [hdl]
    exact splitChar_no_sep (fun hm => (ownerChar_facts (hchar '/' hm)).1 rfl)
  have hlow : lowerStr (str "https") = str "https" := by decide
  simp only [urlParse, hsplit, hvs, if_true, hlow, hspec, hdrop, htake, hdropA, hhost,
    hempty, hpathtake, hsegs, Bool.false_eq_true, if_false]

/-- C7: a GitHub URL with only an owner segment resolves with the
owner-as-repo heuristic to (owner, owner), in both the HTTPS and the SSH
shorthand form; non-GitHub URLs resolve to none. -/
theorem c7_owner_only_heuristic (owner : Str) (hchar : ∀ c ∈ owner, ownerChar c) :
    parse_github_owner_repo (str "https://github.com/" ++ owner) = some (owner, owner) ∧
    parse_github_owner_repo (str "git@github.com:" ++ owner) = some (owner, owner) ∧
    parse_github_owner_repo (str "https://gitlab.com/acme/tool") = none := by
  have hfix : lowerStr owner = owner :=
    lowerStr_fixed (fun c hc => (ownerChar_facts (hchar c hc)).2.2.2)
  refine ⟨?_, ?_, by decide⟩
  · have hlowfull : lowerStr (str "https://github.com/" ++ owner) =
        str "https://github.com/" ++ owner := by
      rw [lowerStr_append, hfix]
      rfl
    have hcont : containsSub (str "https://github.com/" ++ owner) (str "github.com") = true :=
      containsSub_append_left owner (by decide)
    have hu := urlParse_github_owner owner hchar
    simp only [parse_github_owner_repo, hlowfull, hcont, Bool.not_true, Bool.false_eq_true,
      if_false, hu, ModelUrl.domain, Option.getD_some, ne_eq, not_true_eq_false]
  · have hlowfull : lowerStr (str "git@github.com:" ++ owner) =
        str "git@github.com:" ++ owner := by
      rw [lowerStr_append, hfix]
      rfl
    have hcont : containsSub (str "git@github.com:" ++ owner) (str "github.com") = true :=
      containsSub_append_left owner (by decide)
    have hu : urlParse (str "git@github.com:" ++ owner) = none := by
      have hsplit : splitAtColon (str "git@github.com:" ++ owner) =
          some (str "git@github.com", owner) := by
        rw [show str "git@github.com:" ++ owner =
          str "git@github.com" ++ ':' :: owner from rfl]
        exact splitAtColon_append _ (by decide)
      have hvs : validScheme (str "git@github.com") = false := by decide
      simp only [urlParse, hsplit, hvs, Bool.false_eq_true, if_false]
    have hstrip : stripPrefixOf (str "git@github.com:") (str "git@github.com:" ++ owner) =
        some owner := stripPrefixOf_append _ _
    have hparts : splitChar '/' owner = [owner] :=
      splitChar_no_sep (fun hm => (ownerChar_facts (hchar '/' hm)).1 rfl)
    simp only [parse_github_owner_repo, hlowfull, hcont, Bool.not_true, Bool.false_eq_true,
      if_false, hu, hstrip, hparts, List.length_cons, List.length_nil]
    norm_num

/-- C7 witness: the owner `acme` of the spec's examples. -/
theorem c7_owner_only_heuristic_witness :
    parse_github_owner_repo (str "https://github.com/acme") = some (str "acme", str "acme") ∧
    parse_github_owner_repo (str "git@github.com:acme") = some (str "acme", str "acme") ∧
    parse_github_owner_repo (str "https://gitlab.com/acme/tool") = none :=
  c7_owner_only_heuristic (str "acme") (by decide)

theorem toLower_eval (c : Char) :
    Char.toLower c = if 65 ≤ c.toNat ∧ c.toNat ≤ 90 then Char.ofNat (c.toNat + 32) else c := rfl

theorem toLower_toNat_bound (c : Char) (h : 65 ≤ c.toNat ∧ c.toNat ≤ 90) :
    (Char.ofNat (c.toNat + 32)).toNat = c.toNat + 32 := by
  unfold Char.ofNat
  rw [dif_pos]
  · rfl
  · exact Or.inl (by omega)

theorem toLower_idem (c : Char) : Char.toLower (Char.toLower c) = Char.toLower c := by
  by_cases h : 65 ≤ c.toNat ∧ c.toNat ≤ 90
  · have hv : (Char.toLower c).toNat = c.toNat + 32 := by
      rw [toLower_eval, if_pos h]
      exact toLower_toNat_bound c h
    rw [toLower_eval (Char.toLower c), if_neg (by rw [hv]; omega)]
  · have hc : Char.toLower c = c := by rw [toLower_eval, if_neg h]
    rw [hc, hc]

theorem mem_lowerStr_fixed {c : Char} {s : Str} (h : c ∈ lowerStr s) :
    Char.toLower c = c := by
  obtain ⟨d, _, rfl⟩ := List.mem_map.mp h
  exact toLower_idem d

theorem mem_of_mem_splitChar {sep : Char} {l p : Str} {c : Char}
    (hp : p ∈ splitChar sep l) (hc : c ∈ p) : c ∈ l := by
  induction l generalizing p with
  | nil =>
    simp only [splitChar, List.mem_singleton] at hp
    subst hp
    cases hc
  | cons x xs ih =>
    simp only [splitChar] at hp
    by_cases hx : (x == sep) = true
    · rw [if_pos hx] at hp
      rcases List.mem_cons.mp hp with h1 | h1
      · subst h1; cases hc
      · exact List.mem_cons_of_mem _ (ih h1 hc)
    · rw [if_neg hx] at hp
      obtain ⟨h1, t1, ha⟩ := List.exists_cons_of_ne_nil (splitChar_ne_nil sep xs)
      rw [ha] at hp
      rcases List.mem_cons.mp hp with h2 | h2
      · subst h2
        rcases List.mem_cons.mp hc with h3 | h3
        · subst h3; exact List.mem_cons_self _ _
        · refine List.mem_cons_of_mem _ (ih ?_ h3)
          rw [ha]
          exact List.mem_cons_self _ _
      · refine List.mem_cons_of_mem _ (ih ?_ hc)
        rw [ha]
        exact List.mem_cons_of_mem _ h2

theorem stripPrefixOf_drop {pat s t : Str} (h : stripPrefixOf pat s = some t) :
    t = s.drop pat.length := by
  unfold stripPrefixOf at h
  split at h
  · injection h with h
    exact h.symm
  · cases h

theorem mem_of_stripSuffixOf {pat s t : Str} (h : stripSuffixOf pat s = some t)
    {c : Char} (hc : c ∈ t) : c ∈ s := by
  unfold stripSuffixOf at h
  split at h
  · injection h with h
    subst h
    exact List.mem_of_mem_take hc
  · cases h

theorem mem_stripDotOrGit {r : Str} {c : Char} (hc : c ∈ stripDotOrGit r) : c ∈ r := by
  unfold stripDotOrGit at hc
  split at hc
  · rename_i t ht
    exact mem_of_stripSuffixOf ht hc
  · split at hc
    · rename_i t ht
      exact mem_of_stripSuffixOf ht hc
    · exact hc

theorem getD_nil_mem (l : List Str) (i : Nat) : l.getD i [] ∈ l ∨ l.getD i [] = [] := by
  rw [List.getD_eq_getElem?_getD]
  by_cases h : i < l.length
  · left
    rw [List.getElem?_eq_getElem h, Option.getD_some]
    exact List.getElem_mem h
  · rw [List.getElem?_eq_none (by omega)]
    exact Or.inr rfl

/-- C8: the resolver treats case asymmetrically: any pair produced by the
SSH-shorthand branch (taken exactly when standard URL parsing fails) is
fully lower-cased, because that branch splits the lower-cased copy of the
input, while the standard-URL branch preserves the case of the path
segments; hence the HTTPS and SSH forms of the same mixed-case repository
resolve to different pairs. -/
theorem c8_case_asymmetry :
    (∀ link o r, urlParse link = none → parse_github_owner_repo link = some (o, r) →
      lowerStr o = o ∧ lowerStr r = r) ∧
    parse_github_owner_repo (str "https://github.com/Acme/Tool") =
      some (str "Acme", str "Tool") ∧
    parse_github_owner_repo (str "git@github.com:Acme/Tool") =
      some (str "acme", str "tool") ∧
    parse_github_owner_repo (str "https://github.com/Acme/Tool") ≠
      parse_github_owner_repo (str "git@github.com:Acme/Tool") := by
  refine ⟨?_, by decide, by decide, by decide⟩
  intro link o r hu hp
  simp only [parse_github_owner_repo, hu] at hp
  have hfixlow : ∀ c ∈ lowerStr link, Char.toLower c = c := fun c hc => mem_lowerStr_fixed hc
  split at hp
  · cases hp
  · split at hp
    · rename_i rest hrest
      have hrestfix : ∀ c ∈ rest, Char.toLower c = c := by
        intro c hc
        rw [stripPrefixOf_drop hrest] at hc
        exact hfixlow c (List.mem_of_mem_drop hc)
      have hpartfix : ∀ p ∈ splitChar '/' rest, ∀ c ∈ p, Char.toLower c = c :=
        fun p hp' c hc => hrestfix c (mem_of_mem_splitChar hp' hc)
      have hgetfix : ∀ i, lowerStr ((splitChar '/' rest).getD i []) =
          (splitChar '/' rest).getD i [] := by
        intro i
        rcases getD_nil_mem (splitChar '/' rest) i with hm | he
        · exact lowerStr_fixed (fun c hc => hpartfix _ hm c hc)
        · rw [he]; rfl
      split at hp
      · injection hp with hp
        rw [Prod.mk.injEq] at hp
        obtain ⟨ho, hr⟩ := hp
        subst ho
        subst hr
        refine ⟨hgetfix 0, lowerStr_fixed (fun c hc => ?_)⟩
        have hmem := mem_stripDotOrGit hc
        rcases getD_nil_mem (splitChar '/' rest) 1 with hm | he
        · exact hpartfix _ hm c hmem
        · rw [he] at hmem; cases hmem
      · split at hp
        · injection hp with hp
          rw [Prod.mk.injEq] at hp
          obtain ⟨ho, hr⟩ := hp
          subst ho
          subst hr
          exact ⟨hgetfix 0, hgetfix 0⟩
        · cases hp
    · cases hp

/-- C8 witness: the SSH form of Acme/Tool resolves via the shorthand branch
and its output is lower-case fixed. -/
theorem c8_case_asymmetry_witness :
    lowerStr (str "acme") = str "acme" ∧ lowerStr (str "tool") = str "tool" :=
  c8_case_asymmetry.1 (str "git@github.com:Acme/Tool") (str "acme") (str "tool")
    (by decide) (by decide)

theorem mapGet_nil (k' : Str) : mapGet [] k' = none := rfl

theorem mapGet_cons (x : Str × Nat) (m : List (Str × Nat)) (k' : Str) :
    mapGet (x :: m) k' = if x.1 = k' then some x.2 else mapGet m k' := by
  unfold mapGet
  by_cases h : x.1 = k'
  · rw [List.find?_cons_of_pos _ (by simp [h]), if_pos h]
    rfl
  · rw [List.find?_cons_of_neg _ (by simp [h]), if_neg h]

theorem mapGet_replace (m : List (Str × Nat)) (k : Str) (v : Nat) (k' : Str) :
    mapGet (m.map (fun p => if p.1 == k then (k, v) else p)) k' =
      if k' = k then (if m.any (fun p => p.1 == k) then some v else none)
      else mapGet m k' := by
  induction m with
  | nil => by_cases hk : k' = k <;> simp [mapGet, hk]
  | cons x m ih =>
    rw [List.map_cons, List.any_cons, mapGet_cons, mapGet_cons]
    by_cases hx : (x.1 == k) = true
    · have hxk : x.1 = k := eq_of_beq hx
      rw [if_pos hx]
      by_cases hk : k' = k
      · subst hk
        rw [if_pos (show (k', v).1 = k' from rfl), if_pos rfl, if_pos (by rw [hx, Bool.true_or])]
      · rw [if_neg (show ¬(k, v).1 = k' from fun h => hk h.symm), ih, if_neg hk, if_neg hk,
          if_neg (show ¬x.1 = k' from fun h => hk (hxk.symm.trans h).symm)]
    · have hxf : (x.1 == k) = false := Bool.eq_false_iff.mpr hx
      have hxk : x.1 ≠ k := by simpa using hx
      rw [if_neg hx]
      by_cases hk : k' = k
      · subst hk
        rw [if_neg hxk, ih, if_pos rfl, if_pos rfl, hxf, Bool.false_or]
      · by_cases hx2 : x.1 = k'
        · rw [if_pos hx2, if_pos hx2, if_neg hk]
        · rw [if_neg hx2, if_neg hx2, ih, if_neg hk, if_neg hk]

theorem mapGet_append_single (m : List (Str × Nat)) (k : Str) (v : Nat) (k' : Str)
    (hnot : ∀ p ∈ m, p.1 ≠ k) :
    mapGet (m ++ [(k, v)]) k' = if k' = k then some v else mapGet m k' := by
  induction m with
  | nil =>
    rw [List.nil_append, mapGet_cons]
    by_cases hk : k' = k
    · rw [if_pos (show (k, v).1 = k' from hk.symm), if_pos hk]
    · rw [if_neg (show ¬(k, v).1 = k' from fun h => hk h.symm), if_neg hk]
  | cons x m ih =>
    have hx_ne : x.1 ≠ k := hnot x (List.mem_cons_self _ _)
    have hm : ∀ p ∈ m, p.1 ≠ k := fun p hp => hnot p (List.mem_cons_of_mem _ hp)
    rw [List.cons_append, mapGet_cons, mapGet_cons, ih hm]
    by_cases hx2 : x.1 = k'
    · rw [if_pos hx2, if_pos hx2, if_neg (show ¬k' = k from fun h => hx_ne (hx2.trans h))]
    · rw [if_neg hx2, if_neg hx2]

theorem mapGet_insert (m : List (Str × Nat)) (k : Str) (v : Nat) (k' : Str) :
    mapGet (mapInsert m k v) k' = if k' = k then some v else mapGet m k' := by
  unfold mapInsert
  by_cases hany : m.any (fun p => p.1 == k) = true
  · rw [if_pos hany, mapGet_replace, hany]
    by_cases hk : k' = k
    · rw [if_pos hk, if_pos hk, if_pos rfl]
    · rw [if_neg hk, if_neg hk]
  · rw [if_neg hany]
    refine mapGet_append_single m k v k' (fun p hp hpe => hany ?_)
    rw [List.any_eq_true]
    exact ⟨p, hp, by simp [hpe]⟩

theorem enumFrom_cons {α : Type} (s : Nat) (e : α) (es : List α) :
    List.enumFrom s (e :: es) = (s, e) :: List.enumFrom (s + 1) es := rfl

theorem processChunk_go_notin (d : List (Str × Json)) (k : Str) :
    ∀ (chunk : List (Str × (Str × Str))) (s : Nat) (out : List (Str × Nat)),
      (∀ e ∈ chunk, e.1 ≠ k) →
      mapGet ((List.enumFrom s chunk).foldl
        (fun acc p => mapInsert acc p.2.1 (aliasCount d p.1)) out) k = mapGet out k := by
  intro chunk
  induction chunk with
  | nil => intro s out _; rfl
  | cons e es ih =>
    intro s out h
    rw [enumFrom_cons, List.foldl_cons,
      ih (s + 1) _ (fun x hx => h x (List.mem_cons_of_mem _ hx)), mapGet_insert,
      if_neg (fun hk => h e (List.mem_cons_self _ _) hk.symm)]

theorem processChunk_go_at (d : List (Str × Json)) :
    ∀ (chunk : List (Str × (Str × Str))) (s : Nat) (out : List (Str × Nat)) (i : Nat),
      i < chunk.length → (chunk.map (fun e => e.1)).Nodup →
      mapGet ((List.enumFrom s chunk).foldl
        (fun acc p => mapInsert acc p.2.1 (aliasCount d p.1)) out)
        ((chunk.getD i dummyEntry).1) = some (aliasCount d (s + i)) := by
  intro chunk
  induction chunk with
  | nil => intro s out i hi; simp at hi
  | cons e es ih =>
    intro s out i hi hnd
    rw [enumFrom_cons, List.foldl_cons]
    cases i with
    | zero =>
      have hnotin : ∀ x ∈ es, x.1 ≠ e.1 := by
        intro x hx hxe
        rw [List.map_cons] at hnd
        exact (List.nodup_cons.mp hnd).1 (hxe ▸ List.mem_map_of_mem _ hx)
      rw [show ((e :: es).getD 0 dummyEntry).1 = e.1 from rfl,
        processChunk_go_notin d e.1 es (s + 1) _ hnotin, mapGet_insert, if_pos rfl,
        Nat.add_zero]
    | succ i =>
      have hes : i < es.length := by simpa using hi
      have hnd' : (es.map (fun e => e.1)).Nodup := by
        rw [List.map_cons] at hnd
        exact (List.nodup_cons.mp hnd).2
      have harith : s + 1 + i = s + (i + 1) := by omega
      have hih := ih (s + 1) (mapInsert out e.1 (aliasCount d s)) i hes hnd'
      rw [harith] at hih
      rw [List.getD_cons_succ]
      exact hih

theorem processChunk_get_notin (d : List (Str × Json)) (chunk : List (Str × (Str × Str)))
    (out : List (Str × Nat)) (k : Str) (h : ∀ e ∈ chunk, e.1 ≠ k) :
    mapGet (processChunk d chunk out) k = mapGet out k :=
  processChunk_go_notin d k chunk 0 out h

theorem processChunk_get_at (d : List (Str × Json)) (chunk : List (Str × (Str × Str)))
    (out : List (Str × Nat)) (i : Nat) (hi : i < chunk.length)
    (hnd : (chunk.map (fun e => e.1)).Nodup) :
    mapGet (processChunk d chunk out) ((chunk.getD i dummyEntry).1) =
      some (aliasCount d i) := by
  have h := processChunk_go_at d chunk 0 out i hi hnd
  rwa [Nat.zero_add] at h

theorem processChunk_domain (d : List (Str × Json)) (k : Str) :
    ∀ (chunk : List (Str × (Str × Str))) (s : Nat) (out : List (Str × Nat)),
      mapGet ((List.enumFrom s chunk).foldl
        (fun acc p => mapInsert acc p.2.1 (aliasCount d p.1)) out) k ≠ none →
      mapGet out k ≠ none ∨ ∃ e ∈ chunk, e.1 = k := by
  intro chunk
  induction chunk with
  | nil => intro s out h; exact Or.inl h
  | cons e es ih =>
    intro s out h
    rw [enumFrom_cons, List.foldl_cons] at h
    rcases ih (s + 1) _ h with h2 | ⟨x, hx, hxe⟩
    · rw [mapGet_insert] at h2
      by_cases hk : k = e.1
      · exact Or.inr ⟨e, List.mem_cons_self _ _, hk.symm⟩
      · rw [if_neg hk] at h2
        exact Or.inl h2
    · exact Or.inr ⟨x, List.mem_cons_of_mem _ hx, hxe⟩

theorem runChunks_cons_data (net : Str → HttpResult) (c : List (Str × (Str × Str)))
    (cs : List (List (Str × (Str × Str)))) (out : List (Str × Nat)) (v : Json)
    (data : List (Str × Json))
    (hv : net (buildQuery c) = .response 200 (some v))
    (hd : (jsonGet v (str "data")).bind asObject = some data) :
    runChunks net (c :: cs) out = runChunks net cs (processChunk data c out) := by
  have hst : statusSuccess 200 = true := by decide
  simp only [runChunks, hv, hst, Bool.not_true, Bool.false_eq_true, if_false, hd]

theorem runChunks_cons_skip (net : Str → HttpResult) (c : List (Str × (Str × Str)))
    (cs : List (List (Str × (Str × Str)))) (out : List (Str × Nat)) (v : Json)
    (hv : net (buildQuery c) = .response 200 (some v))
    (hd : (jsonGet v (str "data")).bind asObject = none) :
    runChunks net (c :: cs) out = runChunks net cs out := by
  have hst : statusSuccess 200 = true := by decide
  simp only [runChunks, hv, hst, Bool.not_true, Bool.false_eq_true, if_false, hd]

theorem jsonGet_dataObj (d : List (Str × Json)) :
    (jsonGet (Json.jobj [(str "data", Json.jobj d)]) (str "data")).bind asObject =
      some d := by
  rw [show jsonGet (Json.jobj [(str "data", Json.jobj d)]) (str "data") =
    (List.find? (fun p => p.1 == str "data") [(str "data", Json.jobj d)]).map Prod.snd from rfl]
  rw [List.find?_cons_of_pos _ (by simp)]
  rfl

theorem runChunks_get_notin (net : Str → HttpResult) (k : Str) :
    ∀ (chunks : List (List (Str × (Str × Str)))) (out : List (Str × Nat)),
      (∀ c ∈ chunks, ∀ e ∈ c, e.1 ≠ k) →
      (∀ j, j < chunks.length → ∃ v, net (buildQuery (chunks.getD j [])) =
        .response 200 (some v)) →
      ∃ m, runChunks net chunks out = .ok m ∧ mapGet m k = mapGet out k := by
  intro chunks
  induction chunks with
  | nil => intro out _ _; exact ⟨out, rfl, rfl⟩
  | cons c cs ih =>
    intro out hnot hnet
    obtain ⟨v, hv⟩ := hnet 0 (by simp)
    rw [List.getD_cons_zero] at hv
    have hnet' : ∀ j, j < cs.length → ∃ v, net (buildQuery (cs.getD j [])) =
        .response 200 (some v) := by
      intro j hj
      have hs := hnet (j + 1) (by simpa using Nat.succ_lt_succ hj)
      rwa [List.getD_cons_succ] at hs
    have hnot' : ∀ c2 ∈ cs, ∀ e ∈ c2, e.1 ≠ k :=
      fun c2 hc2 => hnot c2 (List.mem_cons_of_mem _ hc2)
    cases hd : (jsonGet v (str "data")).bind asObject with
    | none =>
      obtain ⟨m, hm, hget⟩ := ih out hnot' hnet'
      exact ⟨m, (runChunks_cons_skip net c cs out v hv hd).trans hm, hget⟩
    | some data =>
      obtain ⟨m, hm, hget⟩ := ih (processChunk data c out) hnot' hnet'
      refine ⟨m, (runChunks_cons_data net c cs out v data hv hd).trans hm, ?_⟩
      rw [hget, processChunk_get_notin data c out k (hnot c (List.mem_cons_self _ _))]

theorem getD_eq_getElem {α : Type} (l : List α) (i : Nat) (d : α) (h : i < l.length) :
    l.getD i d = l[i] := by
  rw [List.getD_eq_getElem?_getD, List.getElem?_eq_getElem h, Option.getD_some]

theorem getD_mem {α : Type} (l : List α) (i : Nat) (d : α) (h : i < l.length) :
    l.getD i d ∈ l := by
  rw [getD_eq_getElem l i d h]
  exact List.getElem_mem h

theorem runChunks_get_at (net : Str → HttpResult) :
    ∀ (chunks : List (List (Str × (Str × Str)))) (datas : Nat → List (Str × Json))
      (out : List (Str × Nat)) (j i : Nat) (k : Str),
      (∀ j2, j2 < chunks.length → net (buildQuery (chunks.getD j2 [])) =
        .response 200 (some (Json.jobj [(str "data", Json.jobj (datas j2))]))) →
      j < chunks.length → i < (chunks.getD j []).length →
      ((chunks.getD j []).getD i dummyEntry).1 = k →
      (∀ j2, j2 < chunks.length → ∀ e ∈ chunks.getD j2 [], e.1 = k → j2 = j) →
      ((chunks.getD j []).map (fun e => e.1)).Nodup →
      ∃ m, runChunks net chunks out = .ok m ∧
        mapGet m k = some (aliasCount (datas j) i) := by
  intro chunks
  induction chunks with
  | nil => intro datas out j i k _ hj; simp at hj
  | cons c cs ih =>
    intro datas out j i k hnet hj hi hk huniq hnd
    have hv := hnet 0 (by simp)
    rw [List.getD_cons_zero] at hv
    have hnet' : ∀ j2, j2 < cs.length → net (buildQuery (cs.getD j2 [])) =
        .response 200 (some (Json.jobj [(str "data", Json.jobj (datas (j2 + 1)))])) := by
      intro j2 hj2
      have hs := hnet (j2 + 1) (by simpa using Nat.succ_lt_succ hj2)
      rwa [List.getD_cons_succ] at hs
    cases j with
    | zero =>
      rw [List.getD_cons_zero] at hi hk hnd
      have hnot : ∀ c2 ∈ cs, ∀ e ∈ c2, e.1 ≠ k := by
        intro c2 hc2 e he hek
        obtain ⟨j2, hj2, hj2e⟩ := List.getElem_of_mem hc2
        have hz : j2 + 1 = 0 := by
          refine huniq (j2 + 1) (by simpa using Nat.succ_lt_succ hj2) e ?_ hek
          rw [List.getD_cons_succ, getD_eq_getElem _ _ _ hj2, hj2e]
          exact he
        omega
      obtain ⟨m, hm, hget⟩ := runChunks_get_notin net k cs (processChunk (datas 0) c out)
        hnot (fun j2 hj2 => ⟨_, hnet' j2 hj2⟩)
      refine ⟨m,
        (runChunks_cons_data net c cs out _ (datas 0) hv (jsonGet_dataObj _)).trans hm, ?_⟩
      rw [hget, ← hk]
      exact processChunk_get_at (datas 0) c out i hi hnd
    | succ j =>
      rw [List.getD_cons_succ] at hi hk hnd
      have huniq' : ∀ j2, j2 < cs.length → ∀ e ∈ cs.getD j2 [], e.1 = k → j2 = j := by
        intro j2 hj2 e he hek
        have hs := huniq (j2 + 1) (by simpa using Nat.succ_lt_succ hj2) e
          (by rwa [List.getD_cons_succ]) hek
        omega
      obtain ⟨m, hm, hget⟩ := ih (fun n => datas (n + 1)) (processChunk (datas 0) c out)
        j i k hnet' (by simpa using hj) hi hk huniq' hnd
      exact ⟨m,
        (runChunks_cons_data net c cs out _ (datas 0) hv (jsonGet_dataObj _)).trans hm, hget⟩

theorem runChunks_get_domain (net : Str → HttpResult) :
    ∀ (chunks : List (List (Str × (Str × Str)))) (out m : List (Str × Nat)),
      runChunks net chunks out = .ok m →
      ∀ k, mapGet m k ≠ none →
        mapGet out k ≠ none ∨ ∃ c ∈ chunks, ∃ e ∈ c, e.1 = k := by
  intro chunks
  induction chunks with
  | nil =>
    intro out m hm k hk
    injection hm with hm
    subst hm
    exact Or.inl hk
  | cons c cs ih =>
    intro out m hm k hk
    simp only [runChunks] at hm
    cases hv : net (buildQuery c) with
    | transportFail =>
      rw [hv] at hm
      dsimp only [] at hm
      cases hm
    | response status body =>
      rw [hv] at hm
      dsimp only [] at hm
      by_cases hst : statusSuccess status = true
      · rw [hst] at hm
        simp only [Bool.not_true, Bool.false_eq_true, if_false] at hm
        cases body with
        | none =>
          dsimp only [] at hm
          cases hm
        | some v =>
          dsimp only [] at hm
          cases hd : (jsonGet v (str "data")).bind asObject with
          | none =>
            rw [hd] at hm
            dsimp only [] at hm
            rcases ih _ _ hm k hk with h | ⟨c2, hc2, he⟩
            · exact Or.inl h
            · exact Or.inr ⟨c2, List.mem_cons_of_mem _ hc2, he⟩
          | some data =>
            rw [hd] at hm
            dsimp only [] at hm
            rcases ih _ _ hm k hk with h | ⟨c2, hc2, he⟩
            · rcases processChunk_domain data k c 0 out h with h2 | ⟨e, he, hek⟩
              · exact Or.inl h2
              · exact Or.inr ⟨c, List.mem_cons_self _ _, e, he, hek⟩
            · exact Or.inr ⟨c2, List.mem_cons_of_mem _ hc2, he⟩
      · rw [Bool.eq_false_iff.mpr hst] at hm
        simp only [Bool.not_false, if_true] at hm
        cases hm

theorem chunksOfAux_congr {α : Type} (n : Nat) (hn : 1 ≤ n) :
    ∀ (fuel1 fuel2 : Nat) (l : List α), l.length ≤ fuel1 → l.length ≤ fuel2 →
      chunksOfAux n fuel1 l = chunksOfAux n fuel2 l := by
  intro fuel1
  induction fuel1 with
  | zero =>
    intro fuel2 l h1 _
    have hl : l = [] := List.eq_nil_of_length_eq_zero (Nat.le_zero.mp h1)
    subst hl
    cases fuel2 <;> rfl
  | succ f ih =>
    intro fuel2 l h1 h2
    cases l with
    | nil => cases fuel2 <;> rfl
    | cons x xs =>
      cases fuel2 with
      | zero => simp at h2
      | succ f2 =>
        show List.take n (x :: xs) :: chunksOfAux n f (List.drop n (x :: xs)) =
          List.take n (x :: xs) :: chunksOfAux n f2 (List.drop n (x :: xs))
        congr 1
        apply ih
        · rw [List.length_drop]
          simp only [List.length_cons] at h1 ⊢
          omega
        · rw [List.length_drop]
          simp only [List.length_cons] at h2 ⊢
          omega

theorem chunksOf_cons {α : Type} (n : Nat) (hn : 1 ≤ n) (x : α) (xs : List α) :
    chunksOf n (x :: xs) =
      List.take n (x :: xs) :: chunksOf n (List.drop n (x :: xs)) := by
  rw [show chunksOf n (x :: xs) =
    List.take n (x :: xs) :: chunksOfAux n xs.length (List.drop n (x :: xs)) from rfl]
  congr 1
  apply chunksOfAux_congr n hn
  · rw [List.length_drop]
    simp only [List.length_cons]
    omega
  · exact le_rfl

theorem chunksOf_props {α : Type} (n : Nat) (hn : 1 ≤ n) :
    ∀ (N : Nat) (l : List α), l.length ≤ N →
      (chunksOf n l).flatten = l ∧
      (∀ c ∈ chunksOf n l, c.length ≤ n) ∧
      (chunksOf n l).length = (l.length + n - 1) / n := by
  intro N
  induction N with
  | zero =>
    intro l h
    have hl : l = [] := List.eq_nil_of_length_eq_zero (Nat.le_zero.mp h)
    subst hl
    refine ⟨rfl, ?_, ?_⟩
    · intro c hc
      rw [show chunksOf n ([] : List α) = [] from rfl] at hc
      cases hc
    · show 0 = (0 + n - 1) / n
      rw [Nat.zero_add, Nat.div_eq_of_lt (by omega)]
  | succ N ih =>
    intro l h
    cases l with
    | nil =>
      refine ⟨rfl, ?_, ?_⟩
      · intro c hc
        rw [show chunksOf n ([] : List α) = [] from rfl] at hc
        cases hc
      · show 0 = (0 + n - 1) / n
        rw [Nat.zero_add, Nat.div_eq_of_lt (by omega)]
    | cons x xs =>
      rw [chunksOf_cons n hn]
      have hrec := ih (List.drop n (x :: xs))
        (by rw [List.length_drop]; simp only [List.length_cons] at h ⊢; omega)
      refine ⟨?_, ?_, ?_⟩
      · rw [List.flatten_cons, hrec.1, List.take_append_drop]
      · intro c hc
        rcases List.mem_cons.mp hc with rfl | hc2
        · rw [List.length_take]
          exact Nat.min_le_left _ _
        · exact hrec.2.1 c hc2
      · rw [List.length_cons, hrec.2.2, List.length_drop]
        rcases le_or_lt (x :: xs).length n with hLn | hLn
        · have h1 : (x :: xs).length - n = 0 := by omega
          have hL1 : 1 ≤ (x :: xs).length := by simp
          rw [h1, Nat.zero_add, Nat.div_eq_of_lt (by omega),
            Nat.div_eq_sub_div (by omega) (show n ≤ (x :: xs).length + n - 1 by omega),
            Nat.div_eq_of_lt (show (x :: xs).length + n - 1 - n < n by omega)]
        · rw [Nat.div_eq_sub_div (by omega) (show n ≤ (x :: xs).length + n - 1 by omega)]
          have harg : (x :: xs).length - n + n - 1 = (x :: xs).length + n - 1 - n := by omega
          rw [harg]

theorem chunksOf_getD {α : Type} (n : Nat) (hn : 1 ≤ n) (d : α) :
    ∀ (N : Nat) (l : List α) (i : Nat), l.length ≤ N → i < l.length →
      i % n < ((chunksOf n l).getD (i / n) []).length ∧
      ((chunksOf n l).getD (i / n) []).getD (i % n) d = l.getD i d := by
  intro N
  induction N with
  | zero =>
    intro l i h hi
    have hl : l = [] := List.eq_nil_of_length_eq_zero (Nat.le_zero.mp h)
    subst hl
    simp at hi
  | succ N ih =>
    intro l i h hi
    cases l with
    | nil => simp at hi
    | cons x xs =>
      rw [chunksOf_cons n hn]
      by_cases hin : i < n
      · have hdiv : i / n = 0 := Nat.div_eq_of_lt hin
        have hmod : i % n = i := Nat.mod_eq_of_lt hin
        rw [hdiv, hmod, List.getD_cons_zero]
        constructor
        · rw [List.length_take]
          exact lt_min hin hi
        · rw [List.getD_eq_getElem?_getD, List.getD_eq_getElem?_getD,
            List.getElem?_take_of_lt hin]
      · have hni : n ≤ i := Nat.le_of_not_lt hin
        have hdiv : i / n = (i - n) / n + 1 := Nat.div_eq_sub_div (by omega) hni
        have hmod : i % n = (i - n) % n := Nat.mod_eq_sub_mod hni
        rw [hdiv, hmod, List.getD_cons_succ]
        have hrec := ih (List.drop n (x :: xs)) (i - n)
          (by rw [List.length_drop]; simp only [List.length_cons] at h ⊢; omega)
          (by rw [List.length_drop]; omega)
        refine ⟨hrec.1, ?_⟩
        rw [hrec.2, List.getD_eq_getElem?_getD, List.getD_eq_getElem?_getD,
          List.getElem?_drop]
        have harg : n + (i - n) = i := by omega
        rw [harg]

theorem chunksOf_map_length {α : Type} (n : Nat) (hn : 1 ≤ n) :
    ∀ (N : Nat) (l : List α), l.length ≤ N →
      (chunksOf n l).map List.length =
        List.replicate (l.length / n) n ++
          (if l.length % n = 0 then [] else [l.length % n]) := by
  intro N
  induction N with
  | zero =>
    intro l h
    have hl : l = [] := List.eq_nil_of_length_eq_zero (Nat.le_zero.mp h)
    subst hl
    rw [show chunksOf n ([] : List α) = [] from rfl]
    simp
  | succ N ih =>
    intro l h
    cases l with
    | nil =>
      rw [show chunksOf n ([] : List α) = [] from rfl]
      simp
    | cons x xs =>
      have hih := ih (List.drop n (x :: xs))
        (by rw [List.length_drop]; simp only [List.length_cons] at h ⊢; omega)
      rw [chunksOf_cons n hn, List.map_cons, List.length_take, hih, List.length_drop]
      rcases lt_or_le (x :: xs).length n with hLn | hLn
      · have h0 : (x :: xs).length - n = 0 := by omega
        have hmin : min n (x :: xs).length = (x :: xs).length :=
          Nat.min_eq_right (le_of_lt hLn)
        have hdiv : (x :: xs).length / n = 0 := Nat.div_eq_of_lt hLn
        have hmod : (x :: xs).length % n = (x :: xs).length := Nat.mod_eq_of_lt hLn
        have hne : ¬((x :: xs).length = 0) := by simp
        rw [h0, hmin, hdiv, hmod]
        simp [hne]
      · have hmin : min n (x :: xs).length = n := Nat.min_eq_left hLn
        have hdiv : (x :: xs).length / n = ((x :: xs).length - n) / n + 1 :=
          Nat.div_eq_sub_div (by omega) hLn
        have hmod : (x :: xs).length % n = ((x :: xs).length - n) % n :=
          Nat.mod_eq_sub_mod hLn
        rw [hmin, hdiv, hmod, List.replicate_succ, List.cons_append]

theorem getD_map {α β : Type} (f : α → β) (l : List α) (i : Nat) (d : α) :
    (l.map f).getD i (f d) = f (l.getD i d) := by
  rw [List.getD_eq_getElem?_getD, List.getD_eq_getElem?_getD, List.getElem?_map]
  cases l[i]? <;> rfl

theorem resolvedEntries_map_fst (links : List Str)
    (h : ∀ l ∈ links, (parse_github_owner_repo l).isSome) :
    (resolvedEntries links).map Prod.fst = links := by
  induction links with
  | nil => rfl
  | cons l ls ih =>
    obtain ⟨p, hp⟩ := Option.isSome_iff_exists.mp (h l (List.mem_cons_self _ _))
    have ihls := ih (fun x hx => h x (List.mem_cons_of_mem _ hx))
    show (List.filterMap
        (fun l => (parse_github_owner_repo l).map (fun p => (l, p))) (l :: ls)).map Prod.fst =
      l :: ls
    rw [List.filterMap_cons, hp, Option.map_some', List.map_cons]
    rw [show (List.filterMap
      (fun l => (parse_github_owner_repo l).map (fun p => (l, p))) ls).map Prod.fst = ls
      from ihls]

theorem resolvedEntries_mem {links : List Str} {e : Str × (Str × Str)}
    (he : e ∈ resolvedEntries links) : parse_github_owner_repo e.1 = some e.2 := by
  rw [resolvedEntries, List.mem_filterMap] at he
  obtain ⟨a, _, hfa⟩ := he
  cases hpa : parse_github_owner_repo a with
  | none => rw [hpa] at hfa; cases hfa
  | some p =>
    rw [hpa, Option.map_some'] at hfa
    injection hfa with hfa
    subst hfa
    exact hpa

theorem nodup_keys_unique {α β : Type} {d : List (α × β)}
    (hnd : (d.map Prod.fst).Nodup) :
    ∀ e ∈ d, ∀ e2 ∈ d, e.1 = e2.1 → e = e2 := by
  induction d with
  | nil => intro e he; cases he
  | cons x xs ih =>
    rw [List.map_cons, List.nodup_cons] at hnd
    intro e he e2 he2 hee
    rcases List.mem_cons.mp he with he1 | he1
    · rcases List.mem_cons.mp he2 with he21 | he21
      · rw [he1, he21]
      · subst he1
        exact absurd (by rw [hee]; exact List.mem_map_of_mem Prod.fst he21) hnd.1
    · rcases List.mem_cons.mp he2 with he21 | he21
      · subst he21
        exact absurd (by rw [← hee]; exact List.mem_map_of_mem Prod.fst he1) hnd.1
      · exact ih hnd.2 e he1 e2 he21 hee

theorem find?_key_perm {d d2 : List (Str × Json)} (hperm : d.Perm d2)
    (hnd : (d.map Prod.fst).Nodup) (k : Str) :
    d.find? (fun p => p.1 == k) = d2.find? (fun p => p.1 == k) := by
  cases h : d.find? (fun p => p.1 == k) with
  | none =>
    rw [List.find?_eq_none] at h
    symm
    rw [List.find?_eq_none]
    intro x hx
    exact h x (hperm.mem_iff.mpr hx)
  | some e =>
    have hpe0 := List.find?_some h
    have hpe : (e.1 == k) = true := hpe0
    have hme : e ∈ d := List.mem_of_find?_eq_some h
    cases h2 : d2.find? (fun p => p.1 == k) with
    | none =>
      rw [List.find?_eq_none] at h2
      exact absurd hpe (h2 e (hperm.mem_iff.mp hme))
    | some e2 =>
      have hpe20 := List.find?_some h2
      have hpe2 : (e2.1 == k) = true := hpe20
      have hme2 : e2 ∈ d := hperm.mem_iff.mpr (List.mem_of_find?_eq_some h2)
      rw [nodup_keys_unique hnd e hme e2 hme2 (by rw [eq_of_beq hpe, eq_of_beq hpe2])]

theorem aliasCount_perm {d d2 : List (Str × Json)} (hperm : d.Perm d2)
    (hnd : (d.map Prod.fst).Nodup) (i : Nat) :
    aliasCount d i = aliasCount d2 i := by
  unfold aliasCount
  rw [find?_key_perm hperm hnd]


theorem github_stars_error_of_parse_error (rnet : Str → HttpResult) (link : Str)
    (h : parse_github_owner_repo link = none) :
    ∃ e, github_stars rnet link = .error e := by
  have hagree := ghParse_toOption_agree link
  rw [h] at hagree
  cases hg : github_stars_parse link with
  | error e => exact ⟨e, by simp [github_stars, hg]⟩
  | ok p =>
    rw [hg] at hagree
    cases hagree

theorem github_stars_error_of_transportFail (rnet : Str → HttpResult)
    (hr : ∀ q, rnet q = .transportFail) (link : Str) :
    ∃ e, github_stars rnet link = .error e := by
  cases hg : github_stars_parse link with
  | error e => exact ⟨e, by simp [github_stars, hg]⟩
  | ok p =>
    obtain ⟨owner, repo⟩ := p
    refine ⟨str "GET failed", ?_⟩
    simp [github_stars, hg, hr]

theorem map_proj_id (items : List (Str × Str)) (f : Str × Str → Nat) :
    (items.map (fun p => (p.1, p.2, f p))).map (fun e => (e.1, e.2.1)) = items := by
  rw [List.map_map]
  exact List.map_id items

theorem batch_ok_key_resolvable (net : Str → HttpResult) (links : List Str)
    (tok : Option Str) (m : List (Str × Nat)) (hb : github_stars_batch net links tok = .ok m)
    (k : Str) (hk : mapGet m k ≠ none) : parse_github_owner_repo k ≠ none := by
  by_cases hemp : (resolvedEntries links).isEmpty = true
  · rw [github_stars_batch] at hb
    rw [if_pos hemp] at hb
    injection hb with hb
    subst hb
    exact absurd rfl hk
  · rw [github_stars_batch] at hb
    rw [if_neg hemp] at hb
    rcases runChunks_get_domain net (chunksOf 50 (resolvedEntries links)) [] m hb k hk with
      h | ⟨c, hc, e, he, hek⟩
    · exact absurd rfl h
    · have hflat : (chunksOf 50 (resolvedEntries links)).flatten = resolvedEntries links :=
        (chunksOf_props 50 (by norm_num) (resolvedEntries links).length _ le_rfl).1
      have hee : e ∈ resolvedEntries links := by
        rw [← hflat]
        exact List.mem_flatten.mpr ⟨c, hc, he⟩
      have hsome := resolvedEntries_mem hee
      rw [hek] at hsome
      rw [hsome]
      exact Option.some_ne_none _

/-- C1: the star-collection phase is total: it returns one row per input
item, in order, never an error; any entry whose URL does not resolve gets
star count 0; and with transports that always fail, every entry gets star
count 0 (the counts are `Nat`, hence non-negative). -/
theorem c1_lookup_total (token : Option Str) (gnet rnet : Str → HttpResult)
    (items : List (Str × Str)) :
    ((collectStars token gnet rnet items).1.map (fun e => (e.1, e.2.1)) = items) ∧
    (∀ e ∈ (collectStars token gnet rnet items).1,
      parse_github_owner_repo e.2.1 = none → e.2.2 = 0) ∧
    ((∀ q, gnet q = .transportFail) → (∀ q, rnet q = .transportFail) →
      (collectStars token gnet rnet items).1 = items.map (fun p => (p.1, p.2, 0))) := by
  refine ⟨?_, ?_, ?_⟩
  · cases token with
    | none => exact map_proj_id items _
    | some t =>
      cases hb : github_stars_batch gnet (items.map (fun p => p.2)) (some t) with
      | ok m => simp only [collectStars, hb]; exact map_proj_id items _
      | error e => simp only [collectStars, hb]; exact map_proj_id items _
  · intro e he hpe
    cases token with
    | none =>
      simp only [collectStars, List.mem_map] at he
      obtain ⟨p, _, rfl⟩ := he
      obtain ⟨msg, hmsg⟩ := github_stars_error_of_parse_error rnet p.2 hpe
      simp [hmsg, Except.toOption]
    | some t =>
      cases hb : github_stars_batch gnet (items.map (fun p => p.2)) (some t) with
      | ok m =>
        simp only [collectStars, hb, List.mem_map] at he
        obtain ⟨p, _, rfl⟩ := he
        have hmg : mapGet m p.2 = none := by
          by_contra hne
          exact batch_ok_key_resolvable gnet _ _ m hb p.2 hne hpe
        simp [hmg]
      | error msg =>
        simp only [collectStars, hb, List.mem_map] at he
        obtain ⟨p, _, rfl⟩ := he
        obtain ⟨msg2, hmsg2⟩ := github_stars_error_of_parse_error rnet p.2 hpe
        simp [hmsg2, Except.toOption]
  · intro hg hr
    have hfall : items.map
        (fun p => (p.1, p.2, ((github_stars rnet p.2).toOption).getD 0)) =
        items.map (fun p => (p.1, p.2, 0)) := by
      apply List.map_congr_left
      intro p _
      obtain ⟨msg, hmsg⟩ := github_stars_error_of_transportFail rnet hr p.2
      simp [hmsg, Except.toOption]
    cases token with
    | none => simpa only [collectStars] using hfall
    | some t =>
      cases hb : github_stars_batch gnet (items.map (fun p => p.2)) (some t) with
      | error msg => simpa only [collectStars, hb] using hfall
      | ok m =>
        have hm : m = [] := by
          by_cases hemp : (resolvedEntries (items.map (fun p => p.2))).isEmpty = true
          · rw [github_stars_batch, if_pos hemp] at hb
            injection hb with hb
            exact hb.symm
          · exfalso
            rw [github_stars_batch, if_neg hemp] at hb
            have hne : resolvedEntries (items.map (fun p => p.2)) ≠ [] := by
              intro hcon
              rw [hcon] at hemp
              exact hemp rfl
            obtain ⟨x, xs, hxs⟩ := List.exists_cons_of_ne_nil hne
            rw [hxs, chunksOf_cons 50 (by norm_num)] at hb
            simp only [runChunks, hg] at hb
            cases hb
        subst hm
        simp only [collectStars, hb]
        rfl

/-- C1 witness: an unresolvable URL with failing transports yields the row
with star count 0. -/
theorem c1_lookup_total_witness :
    (collectStars none (fun _ => HttpResult.transportFail)
        (fun _ => HttpResult.transportFail) [(str "t", str "u")]).1 =
      [(str "t", str "u", 0)] :=
  (c1_lookup_total none _ _ [(str "t", str "u")]).2.2 (fun _ => rfl) (fun _ => rfl)


/-- C10: a bulk chunk whose response has a success status and decodes as
JSON but lacks a top-level `data` object is not a bulk-path failure: the
batch returns Ok with those URLs absent from the map, the caller ranks them
with stars 0, no per-item fallback runs (the REST transport is arbitrary
and unused), and the fallback-warning flag stays false. -/
theorem c10_missing_data_skipped (tok : Str) (items : List (Str × Str))
    (gnet rnet : Str → HttpResult) (v : Json)
    (hres : ∀ p ∈ items, (parse_github_owner_repo p.2).isSome)
    (hlen : items.length ≤ 50)
    (hnet : ∀ q, gnet q = .response 200 (some v))
    (hdata : (jsonGet v (str "data")).bind asObject = none) :
    github_stars_batch gnet (items.map (fun p => p.2)) (some tok) = .ok [] ∧
    collectStars (some tok) gnet rnet items = (items.map (fun p => (p.1, p.2, 0)), false) := by
  have hres2 : ∀ l ∈ items.map (fun p => p.2), (parse_github_owner_repo l).isSome := by
    intro l hl
    obtain ⟨p, hp, rfl⟩ := List.mem_map.mp hl
    exact hres p hp
  have hb : github_stars_batch gnet (items.map (fun p => p.2)) (some tok) = .ok [] := by
    by_cases hemp : (resolvedEntries (items.map (fun p => p.2))).isEmpty = true
    · rw [github_stars_batch, if_pos hemp]
    · rw [github_stars_batch, if_neg hemp]
      have hne : resolvedEntries (items.map (fun p => p.2)) ≠ [] := by
        intro hcon
        rw [hcon] at hemp
        exact hemp rfl
      obtain ⟨x, xs, hxs⟩ := List.exists_cons_of_ne_nil hne
      have hlen2 : (x :: xs).length ≤ 50 := by
        have hfst := resolvedEntries_map_fst (items.map (fun p => p.2)) hres2
        have hlenq := congrArg List.length hfst
        rw [List.length_map, List.length_map] at hlenq
        rw [← hxs, hlenq]
        exact hlen
      rw [hxs, chunksOf_cons 50 (by norm_num), List.take_of_length_le hlen2,
        List.drop_eq_nil_of_le hlen2,
        show chunksOf 50 ([] : List (Str × (Str × Str))) = [] from rfl,
        runChunks_cons_skip gnet (x :: xs) [] [] v (hnet _) hdata]
      rfl
  refine ⟨hb, ?_⟩
  simp only [collectStars, hb]
  rfl

/-- C10 witness: one resolvable URL, a response whose JSON body is the
empty object. -/
theorem c10_missing_data_skipped_witness :
    github_stars_batch (fun _ => HttpResult.response 200 (some (Json.jobj [])))
        ([(str "t", str "https://github.com/acme/tool")].map (fun p => p.2)) (some (str "k")) =
      .ok [] ∧
    collectStars (some (str "k")) (fun _ => HttpResult.response 200 (some (Json.jobj [])))
        (fun _ => HttpResult.transportFail) [(str "t", str "https://github.com/acme/tool")] =
      ([(str "t", str "https://github.com/acme/tool", 0)], false) :=
  c10_missing_data_skipped (str "k") [(str "t", str "https://github.com/acme/tool")]
    (fun _ => HttpResult.response 200 (some (Json.jobj []))) (fun _ => HttpResult.transportFail)
    (Json.jobj []) (by decide) (by decide) (fun _ => rfl) rfl



/-- C3: the bulk lookup partitions the resolved entries into ceil(N/50)
chunks of at most 50 whose concatenation is the entry list (for 120
resolved URLs: sizes 50, 50, 20), the star count of the i-th URL is read
back from the alias `r<i mod 50>` of its chunk's `data` object, and the
alias lookup is invariant under reordering of the response object's keys. -/
theorem c3_bulk_chunking (links : List Str) (tok : Option Str)
    (hres : ∀ l ∈ links, (parse_github_owner_repo l).isSome) :
    ((chunksOf 50 (resolvedEntries links)).flatten = resolvedEntries links ∧
     (∀ c ∈ chunksOf 50 (resolvedEntries links), c.length ≤ 50) ∧
     (chunksOf 50 (resolvedEntries links)).length = (links.length + 49) / 50) ∧
    (links.length = 120 →
      (chunksOf 50 (resolvedEntries links)).map List.length = [50, 50, 20]) ∧
    (∀ (net : Str → HttpResult) (datas : Nat → List (Str × Json)),
      links.Nodup →
      (∀ j, j < (chunksOf 50 (resolvedEntries links)).length →
        net (buildQuery ((chunksOf 50 (resolvedEntries links)).getD j [])) =
          .response 200 (some (Json.jobj [(str "data", Json.jobj (datas j))]))) →
      ∃ m, github_stars_batch net links tok = .ok m ∧
        ∀ i, i < links.length →
          mapGet m (links.getD i []) = some (aliasCount (datas (i / 50)) (i % 50))) ∧
    (∀ (d d2 : List (Str × Json)) (i : Nat), d.Perm d2 → (d.map Prod.fst).Nodup →
      aliasCount d i = aliasCount d2 i) := by
  have hfst : (resolvedEntries links).map Prod.fst = links := resolvedEntries_map_fst links hres
  have hlen : (resolvedEntries links).length = links.length := by
    have hc := congrArg List.length hfst
    rwa [List.length_map] at hc
  have hprops := chunksOf_props 50 (by norm_num) (resolvedEntries links).length
    (resolvedEntries links) le_rfl
  refine ⟨⟨hprops.1, hprops.2.1, by rw [hprops.2.2, hlen]; omega⟩, ?_, ?_,
    fun d d2 i hperm hnd => aliasCount_perm hperm hnd i⟩
  · intro h120
    rw [chunksOf_map_length 50 (by norm_num) (resolvedEntries links).length _ le_rfl, hlen,
      h120]
    decide
  · intro net datas hnodup hnet
    by_cases hemp : (resolvedEntries links).isEmpty = true
    · have hl : links = [] := by
        have hnil : resolvedEntries links = [] := List.isEmpty_iff.mp hemp
        rw [← hfst, hnil]
        rfl
      refine ⟨[], by rw [github_stars_batch, if_pos hemp], ?_⟩
      intro i hi
      rw [hl] at hi
      simp at hi
    · have hne : resolvedEntries links ≠ [] := by
        intro hcon
        rw [hcon] at hemp
        exact hemp rfl
      have hlinkpos : 0 < links.length := by
        rw [← hlen]
        exact List.length_pos.mpr hne
      have hmapflat :
          ((chunksOf 50 (resolvedEntries links)).map (List.map Prod.fst)).flatten = links := by
        rw [← List.map_flatten, hprops.1, hfst]
      have hndflat :
          (((chunksOf 50 (resolvedEntries links)).map (List.map Prod.fst)).flatten).Nodup := by
        rw [hmapflat]
        exact hnodup
      have hparts := List.nodup_flatten.mp hndflat
      have hcore : ∀ i, i < links.length →
          ∃ m, runChunks net (chunksOf 50 (resolvedEntries links)) [] = .ok m ∧
            mapGet m (links.getD i []) = some (aliasCount (datas (i / 50)) (i % 50)) := by
        intro i hi
        have hi' : i < (resolvedEntries links).length := by
          rw [hlen]
          exact hi
        have hget := chunksOf_getD 50 (by norm_num) dummyEntry
          (resolvedEntries links).length (resolvedEntries links) i le_rfl hi'
        have hkfst : ((resolvedEntries links).getD i dummyEntry).1 = links.getD i [] := by
          have hm := getD_map Prod.fst (resolvedEntries links) i dummyEntry
          rw [hfst] at hm
          exact hm.symm
        have hj : i / 50 < (chunksOf 50 (resolvedEntries links)).length := by
          rw [hprops.2.2, Nat.div_lt_iff_lt_mul (by norm_num : (0 : Nat) < 50)]
          omega
        have hchunkmem : (chunksOf 50 (resolvedEntries links)).getD (i / 50) [] ∈
            chunksOf 50 (resolvedEntries links) := getD_mem _ _ _ hj
        have hnd_chunk :
            (((chunksOf 50 (resolvedEntries links)).getD (i / 50) []).map
              (fun e => e.1)).Nodup :=
          hparts.1 _ (List.mem_map_of_mem _ hchunkmem)
        have hkmem : links.getD i [] ∈
            ((chunksOf 50 (resolvedEntries links)).getD (i / 50) []).map Prod.fst := by
          rw [← hkfst, ← hget.2]
          exact List.mem_map_of_mem _ (getD_mem _ _ _ hget.1)
        have huniq : ∀ j2, j2 < (chunksOf 50 (resolvedEntries links)).length →
            ∀ e ∈ (chunksOf 50 (resolvedEntries links)).getD j2 [],
              e.1 = links.getD i [] → j2 = i / 50 := by
          intro j2 hj2 e he hek
          by_contra hnej
          have hk1 : links.getD i [] ∈
              ((chunksOf 50 (resolvedEntries links)).getD j2 []).map Prod.fst := by
            rw [← hek]
            exact List.mem_map_of_mem _ he
          have hmaplen : ((chunksOf 50 (resolvedEntries links)).map
              (List.map Prod.fst)).length = (chunksOf 50 (resolvedEntries links)).length :=
            List.length_map _ _
          have hget1 : ∀ j3, ∀ hj3 : j3 < (chunksOf 50 (resolvedEntries links)).length,
              ∀ hj3m : j3 < ((chunksOf 50 (resolvedEntries links)).map
                (List.map Prod.fst)).length,
              ((chunksOf 50 (resolvedEntries links)).map
                (List.map Prod.fst)).get ⟨j3, hj3m⟩ =
              ((chunksOf 50 (resolvedEntries links)).getD j3 []).map Prod.fst := by
            intro j3 hj3 hj3m
            rw [List.get_eq_getElem, List.getElem_map, getD_eq_getElem _ _ _ hj3]
          rcases Nat.lt_or_ge j2 (i / 50) with hlt | hge
          · have hdisj := List.pairwise_iff_get.mp hparts.2
              ⟨j2, by rw [hmaplen]; exact hj2⟩ ⟨i / 50, by rw [hmaplen]; exact hj⟩
              (Fin.mk_lt_mk.mpr hlt)
            rw [hget1 j2 hj2, hget1 (i / 50) hj] at hdisj
            exact hdisj hk1 hkmem
          · have hlt2 : i / 50 < j2 := by omega
            have hdisj := List.pairwise_iff_get.mp hparts.2
              ⟨i / 50, by rw [hmaplen]; exact hj⟩ ⟨j2, by rw [hmaplen]; exact hj2⟩
              (Fin.mk_lt_mk.mpr hlt2)
            rw [hget1 j2 hj2, hget1 (i / 50) hj] at hdisj
            exact hdisj hkmem hk1
        have hkey_fst : (((chunksOf 50 (resolvedEntries links)).getD (i / 50) []).getD
            (i % 50) dummyEntry).1 = links.getD i [] := by
          rw [hget.2]
          exact hkfst
        exact runChunks_get_at net (chunksOf 50 (resolvedEntries links)) datas []
          (i / 50) (i % 50) (links.getD i []) hnet hj hget.1 hkey_fst huniq hnd_chunk
      obtain ⟨m0, hm0, _⟩ := hcore 0 hlinkpos
      refine ⟨m0, by rw [github_stars_batch, if_neg hemp]; exact hm0, ?_⟩
      intro i hi
      obtain ⟨mi, hmi, hvi⟩ := hcore i hi
      rw [Except.ok.inj (hm0.symm.trans hmi)]
      exact hvi

/-- C3 witness: a single resolvable URL, one chunk, the count read back
from alias r0 of the response's `data` object. -/
theorem c3_bulk_chunking_witness :
    ∃ m, github_stars_batch
        (fun _ => HttpResult.response 200 (some (Json.jobj [(str "data", Json.jobj
          [(aliasStr 0, Json.jobj [(str "stargazerCount", Json.jnum 42)])])])))
        [str "https://github.com/acme/tool"] none = .ok m ∧
      ∀ i, i < [str "https://github.com/acme/tool"].length →
        mapGet m ([str "https://github.com/acme/tool"].getD i []) =
          some (aliasCount
            ((fun _ => [(aliasStr 0, Json.jobj [(str "stargazerCount", Json.jnum 42)])])
              (i / 50)) (i % 50)) :=
  (c3_bulk_chunking [str "https://github.com/acme/tool"] none (by decide)).2.2.1
    (fun _ => HttpResult.response 200 (some (Json.jobj [(str "data", Json.jobj
      [(aliasStr 0, Json.jobj [(str "stargazerCount", Json.jnum 42)])])])))
    (fun _ => [(aliasStr 0, Json.jobj [(str "stargazerCount", Json.jnum 42)])])
    (by decide) (fun j hj => rfl)

end Dotman
